import Mathlib

/-!
A Lean model of the module-resolution and link-time composition engine of a
shader-language compiler (the `wesl` crate).  The model shallowly embeds the
code of `resolve.rs` (module paths, resources, provider compositors) and
`import.rs` (the import flattener and the eager/lazy resolver kernel).

Modelling conventions:
* Rust `PathBuf`s are lists of `Component`s (prefix, root, `.`, `..`, normal
  segment), mirroring `std::path::Component`.
* Identifier cells (`Ident`, a shared mutable string cell compared by
  address) are natural numbers; the string content of every cell is given by
  an ambient `Names : Nat → String` store.  Cell equality is `Nat` equality,
  never string equality, exactly like the source's pointer equality.
  Renaming (the mangler pass) produces an updated store.
* `HashMap`/`HashSet` are association lists / duplicate-free lists; where
  the source iterates a hash map in unspecified order, the model fixes
  insertion order.
* Fallible Rust code returns `KOut`; Rust panics (RefCell borrow conflicts,
  `unwrap` failures) are the `panicked` outcome.  Recursion whose
  termination depends on the provider is indexed by fuel; exhaustion is the
  `fuelOut` outcome, distinct from every outcome the code can produce.
-/

namespace Wesl

/-- One component of a `std::path::Path`, as produced by `components()`. -/
inductive Component where
  | prefixComp (s : String)
  | rootDir
  | curDir
  | parentDir
  | normal (s : String)
deriving DecidableEq, Repr

/-- Rust `Path::file_stem` semantics on a single file name: the portion
before the final `.`, unless the name begins with `.` and contains no other
`.` (then the whole name), or contains no `.` at all.  `with_extension("")`
replaces the file name by its stem.  (The reversed character list is split
at the final dot; an empty stem means the only dot is leading.) -/
def stripExt (s : String) : String :=
  let r := s.data.reverse
  if r.contains '.' then
    let stem_rev := (r.dropWhile (fun c => c ≠ '.')).drop 1
    if stem_rev = [] then s else String.mk stem_rev.reverse
  else s

/-- `path.with_extension("")` at the component level: the stem replaces the
last component when that component is a normal segment (otherwise
`file_name()` is `None` and the path is unchanged).  A stem that re-reads as
`..` or `.` is re-parsed by `components()`; a non-leading `.` is dropped. -/
def stripLastExt (cs : List Component) : List Component :=
  match cs.getLast? with
  | some (Component.normal s) =>
    let t := stripExt s
    if t = ".." then cs.dropLast ++ [Component.parentDir]
    else if t = "." then (if cs.dropLast = [] then [Component.curDir] else cs.dropLast)
    else cs.dropLast ++ [Component.normal t]
  | _ => cs

/-- Rust `PathBuf::pop`: truncate to `parent()`.  Fails (returns `none`) on
the empty path and on a bare root; otherwise drops the final component. -/
def popPath (cs : List Component) : Option (List Component) :=
  match cs with
  | [] => none
  | [Component.rootDir] => none
  | _ => some cs.dropLast

/-- One iteration of the `for comp in ... .components()` loop of
`clean_path` in `resolve.rs`. -/
def cleanPush (res : List Component) (comp : Component) : List Component :=
  match comp with
  | Component.prefixComp _ => res
  | Component.rootDir => res ++ [comp]
  | Component.curDir => if res = [] then res ++ [comp] else res
  | Component.parentDir =>
    match popPath res with
    | some res' => res'
    | none => res ++ [comp]
  | Component.normal _ => res ++ [comp]

/-- The loop body of `clean_path` over the already-extension-stripped
component sequence. -/
def cleanComponents (cs : List Component) : List Component :=
  cs.foldl cleanPush []

/-- `clean_path` from `resolve.rs`: strip the final segment's extension,
then fold the components through `cleanPush`. -/
def clean_path (cs : List Component) : List Component :=
  cleanComponents (stripLastExt cs)

/-- `Resource` from `resolve.rs`: a cleaned path uniquely identifying an
importable module.  Equality is `PathBuf` equality, i.e. component-list
equality. -/
structure Resource where
  path : List Component
deriving DecidableEq, Repr

/-- `Resource::new`. -/
def Resource.new (cs : List Component) : Resource :=
  ⟨clean_path cs⟩

/-- `Resource::push`: appends a plain segment with no re-cleaning. -/
def Resource.push (r : Resource) (item : String) : Resource :=
  ⟨r.path ++ [Component.normal item]⟩

/-- `PathBuf::push` of a whole path: an absolute suffix replaces the
receiver, otherwise the components are appended. -/
def pushPath (base suffix : List Component) : List Component :=
  if suffix.head? = some Component.rootDir then suffix else base ++ suffix

/-- `Resource::join`: push the suffix, then re-clean. -/
def Resource.join (r : Resource) (suffix : List Component) : Resource :=
  ⟨clean_path (pushPath r.path suffix)⟩

/-- The string content of every identifier cell.  Cells themselves are the
`Nat` indices; the resolver compares cells by index (pointer equality) and
reads names through this store. -/
abbrev Names := Nat → String

/-- `TypeExpression` from `syntax.rs`: an optional path, an identifier
cell, and the type expressions nested in its template arguments. -/
inductive TyExpr where
  | mk (path : Option (List Component)) (ident : Nat) (args : List TyExpr)

/-- The path of a type expression. -/
def TyExpr.path : TyExpr → Option (List Component)
  | TyExpr.mk p _ _ => p

/-- The identifier cell of a type expression. -/
def TyExpr.ident : TyExpr → Nat
  | TyExpr.mk _ i _ => i

/-- The type expressions nested in the template arguments. -/
def TyExpr.args : TyExpr → List TyExpr
  | TyExpr.mk _ _ a => a

/-- `GlobalDeclaration` from `syntax.rs`.  Each named kind carries its
defining identifier cell; all type expressions appearing anywhere inside the
declaration are collected, in source order, in `tys` (the `Visit`
traversal). -/
inductive GlobalDeclaration where
  | void
  | declaration (ident : Nat) (tys : List TyExpr)
  | typeAlias (ident : Nat) (tys : List TyExpr)
  | structDecl (ident : Nat) (tys : List TyExpr)
  | function (ident : Nat) (tys : List TyExpr)
  | constAssert (tys : List TyExpr)

/-- `GlobalDeclaration::ident()`: the defining identifier, if the
declaration has one. -/
def GlobalDeclaration.ident : GlobalDeclaration → Option Nat
  | GlobalDeclaration.void => none
  | GlobalDeclaration.declaration i _ => some i
  | GlobalDeclaration.typeAlias i _ => some i
  | GlobalDeclaration.structDecl i _ => some i
  | GlobalDeclaration.function i _ => some i
  | GlobalDeclaration.constAssert _ => none

/-- `GlobalDeclaration::is_const_assert()`. -/
def GlobalDeclaration.isConstAssert : GlobalDeclaration → Bool
  | GlobalDeclaration.constAssert _ => true
  | _ => false

/-- The type expressions of a declaration, in `Visit` order. -/
def GlobalDeclaration.tys : GlobalDeclaration → List TyExpr
  | GlobalDeclaration.void => []
  | GlobalDeclaration.declaration _ t => t
  | GlobalDeclaration.typeAlias _ t => t
  | GlobalDeclaration.structDecl _ t => t
  | GlobalDeclaration.function _ t => t
  | GlobalDeclaration.constAssert t => t

/-- Write back the (rewritten) type expressions of a declaration. -/
def GlobalDeclaration.withTys : GlobalDeclaration → List TyExpr → GlobalDeclaration
  | GlobalDeclaration.void, _ => GlobalDeclaration.void
  | GlobalDeclaration.declaration i _, t => GlobalDeclaration.declaration i t
  | GlobalDeclaration.typeAlias i _, t => GlobalDeclaration.typeAlias i t
  | GlobalDeclaration.structDecl i _, t => GlobalDeclaration.structDecl i t
  | GlobalDeclaration.function i _, t => GlobalDeclaration.function i t
  | GlobalDeclaration.constAssert _, t => GlobalDeclaration.constAssert t

/-- The import statements of a module (`Vec<Import>` in `syntax.rs`),
encoded as a right-nested chain so that all recursion over the tree is
structural: `done` is the empty list, `item path ident rename next` a leaf
statement `path::ident [as rename]` followed by `next`, and
`collection path children next` a collection `path::{children}` followed
by `next`. -/
inductive ImpChain where
  | done
  | item (path : List Component) (ident : Nat) (rename : Option Nat)
      (next : ImpChain)
  | collection (path : List Component) (children : ImpChain) (next : ImpChain)

/-- A translation unit: import statements (`imps`), global directives
(opaque tokens), global declarations. -/
structure TranslationUnit where
  imps : ImpChain
  global_directives : List String
  global_declarations : List GlobalDeclaration

/-- The `Imports` table of a module: local alias cell ↦ (external module
resource, external-spelling identifier cell).  The source uses
`HashMap<Ident, (Resource, Ident)>`; the model fixes insertion order. -/
abbrev Imports := List (Nat × Resource × Nat)

/-- `HashMap` lookup on the alias cell. -/
def lookupImp (imps : Imports) (c : Nat) : Option (Resource × Nat) :=
  (imps.find? (fun e => e.1 = c)).map (fun e => e.2)

/-- `HashMap::insert`: replace a binding with the same key, else append. -/
def insertImp (imps : Imports) (k : Nat) (v : Resource × Nat) : Imports :=
  if (imps.find? (fun e => e.1 = k)).isSome then
    imps.map (fun e => if e.1 = k then (k, v) else e)
  else imps ++ [(k, v)]

/-- `HashMap::extend`: insert each entry of `new` in order. -/
def extendImps (base new : Imports) : Imports :=
  new.foldl (fun acc e => insertImp acc e.1 e.2) base

/-- `absolute_resource` from `import.rs`: a path beginning with `.` or `..`
is joined onto the importing module's resource; any other path stands on
its own. -/
def absolute_resource (p : List Component) (parent : Option Resource) : Resource :=
  match p.head? with
  | some Component.curDir =>
    match parent with
    | some par => par.join p
    | none => Resource.new p
  | some Component.parentDir =>
    match parent with
    | some par => par.join p
    | none => Resource.new p
  | _ => Resource.new p

/-- The loop of `imported_resources` from `import.rs`, with the result map
threaded as an accumulator.  A leaf inserts
`rename-or-ident ↦ (absolute path, ident)`; a collection distributes its
path over its children and extends the map with their flattening.  The
source clones each child of a collection with the collection's path
prepended before recursing; the model threads that pending prefix as
`pfx`, applying it where the leaf's absolute path is computed. -/
def imported_resources_go (parent : Resource) (pfx : List Component)
    (acc : Imports) : ImpChain → Imports
  | ImpChain.done => acc
  | ImpChain.item path idc rn next =>
    imported_resources_go parent pfx
      (insertImp acc (rn.getD idc)
        (absolute_resource (pfx ++ path) (some parent), idc))
      next
  | ImpChain.collection path cs next =>
    let sub := imported_resources_go parent (pfx ++ path) [] cs
    imported_resources_go parent pfx (extendImps acc sub) next

/-- `imported_resources` from `import.rs`: flatten a module's import
statements into its alias table.  Note: the function is total (its Rust
type is not `Result`); duplicate aliases are never detected. -/
def imported_resources (imps : ImpChain) (parent : Resource) : Imports :=
  imported_resources_go parent [] [] imps

/-- `ImportError` from `import.rs`.  `duplicateSymbol` mirrors the
`DuplicateSymbol` variant of the source enum; `resolveError` stands for a
provider failure. -/
inductive ImportError where
  | duplicateSymbol (s : String)
  | resolveError
  | missingDecl (r : Resource) (s : String)
  | circularDependency (r : Resource)
deriving DecidableEq, Repr

/-- Outcome of a kernel computation: a value, a returned `ImportError`, a
Rust panic (RefCell borrow conflict or failed `unwrap`), or exhaustion of
the model's recursion fuel. -/
inductive KOut (α : Type) where
  | ok (a : α)
  | err (e : ImportError)
  | panicked
  | fuelOut

/-- Sequencing of kernel computations (`?` propagation). -/
def KOut.bind {α β : Type} : KOut α → (α → KOut β) → KOut β
  | KOut.ok a, f => f a
  | KOut.err e, _ => KOut.err e
  | KOut.panicked, _ => KOut.panicked
  | KOut.fuelOut, _ => KOut.fuelOut

@[simp] theorem KOut.bind_ok {α β : Type} (a : α) (f : α → KOut β) :
    KOut.bind (KOut.ok a) f = f a := rfl
@[simp] theorem KOut.bind_err {α β : Type} (e : ImportError) (f : α → KOut β) :
    KOut.bind (KOut.err e) f = KOut.err e := rfl
@[simp] theorem KOut.bind_panicked {α β : Type} (f : α → KOut β) :
    KOut.bind KOut.panicked f = KOut.panicked := rfl
@[simp] theorem KOut.bind_fuelOut {α β : Type} (f : α → KOut β) :
    KOut.bind KOut.fuelOut f = KOut.fuelOut := rfl

/-- Forget the failure mode. -/
def KOut.toOption {α : Type} : KOut α → Option α
  | KOut.ok a => some a
  | _ => none

/-- A module resolver (the `Resolver` trait's `resolve_module`): `none`
models every provider failure. -/
abbrev ModResolver := Resource → Option TranslationUnit

/-- The runtime `Module` record of `import.rs`. -/
structure Module where
  source : TranslationUnit
  resource : Resource
  /-- `idents`: defining identifier cell ↦ declaration index. -/
  idents : List (Nat × Nat)
  /-- `treated_idents`: cells already usage-analyzed. -/
  treated_idents : List Nat
  /-- `imports` in the source: the flattened alias table. -/
  imps : Imports

/-- `HashMap<Ident, usize>` lookup in a module's `idents` table. -/
def lookupIdent (idents : List (Nat × Nat)) (c : Nat) : Option Nat :=
  (idents.find? (fun e => e.1 = c)).map (fun e => e.2)

/-- Find a declaration entry by the string content of its identifier
(`*id.name() == *ext_id.name()`). -/
def findIdentByName (names : Names) (idents : List (Nat × Nat)) (s : String) :
    Option (Nat × Nat) :=
  idents.find? (fun e => names e.1 = s)

/-- `Module::new`: derive the `idents` table and the alias table. -/
def Module.new (source : TranslationUnit) (resource : Resource) : Module :=
  { source := source
    resource := resource
    idents := source.global_declarations.enum.filterMap
      (fun e => (e.2.ident).map (fun c => (c, e.1)))
    treated_idents := []
    imps := imported_resources source.imps resource }

/-- Indices of the `const_assert` declarations of a unit. -/
def constAssertIndices (tu : TranslationUnit) : List Nat :=
  tu.global_declarations.enum.filterMap
    (fun e => if e.2.isConstAssert then some e.1 else none)

/-- `Resolutions`: the loaded modules and their creation order. -/
structure Resolutions where
  modules : List (Resource × Module)
  order : List Resource

/-- `Resolutions::new()`. -/
def Resolutions.new : Resolutions := ⟨[], []⟩

/-- Lookup of a loaded module by resource. -/
def findModule (st : Resolutions) (r : Resource) : Option Module :=
  (st.modules.find? (fun e => e.1 = r)).map (fun e => e.2)

/-- `Resolutions::push_module`.  Every call site first checks that the key
is absent, so the map insert is an append. -/
def push_module (st : Resolutions) (r : Resource) (m : Module) : Resolutions :=
  ⟨st.modules ++ [(r, m)], st.order ++ [r]⟩

/-- Write an updated module value back into the map (in Rust the module is
mutated in place through its `Rc<RefCell<_>>`). -/
def setModule (st : Resolutions) (r : Resource) (m : Module) : Resolutions :=
  ⟨st.modules.map (fun e => if e.1 = r then (r, m) else e), st.order⟩

/-- `HashSet` insert on a modelled set. -/
def insertSet (l : List Nat) (x : Nat) : List Nat :=
  if x ∈ l then l else l ++ [x]

/-- `HashSet::extend`. -/
def extendSet (l : List Nat) (xs : List Nat) : List Nat :=
  xs.foldl insertSet l

/-- The per-resource worklists (`Decls = HashMap<Resource, HashSet<usize>>`). -/
abbrev Decls := List (Resource × List Nat)

/-- Insert a declaration index into the worklist entry of a resource
(`entry(r).or_insert(default).insert(i)`). -/
def insertDecl (ds : Decls) (r : Resource) (i : Nat) : Decls :=
  if (ds.find? (fun e => e.1 = r)).isSome then
    ds.map (fun e => if e.1 = r then (r, insertSet e.2 i) else e)
  else ds ++ [(r, [i])]

/-- `resolve_inline_resource` from `import.rs`: resolve an inline qualified
path against a module's alias table.  A rooted path whose first segment
names an alias is redirected through the alias
(`import a::b::c as foo; foo::bar` becomes `a::b::c::bar`); any other
rooted path stands alone; a non-rooted path goes through
`absolute_resource`.  The source `unwrap`s the segment after the root;
parser-produced paths always have one. -/
def resolve_inline_resource (names : Names) (p : List Component)
    (parent : Resource) (imps : Imports) : Resource :=
  if p.head? = some Component.rootDir then
    match (p.drop 1).head? with
    | none => Resource.new p
    | some c =>
      let pfxName := match c with
        | Component.normal s => s
        | Component.curDir => "."
        | Component.parentDir => ".."
        | Component.rootDir => "/"
        | Component.prefixComp s => s
      match imps.find? (fun e => names e.1 = pfxName) with
      | some e =>
        let res := Resource.push e.2.1 (names e.2.2)
        res.join (p.drop 2)
      | none => Resource.new p
  else absolute_resource p (some parent)

/-- `load_module` from `resolve_lazy`: return a module already in the map,
else fetch it from the provider, extend the caller's worklist with its
const-assert indices, and register it. -/
def load_module (resolver : ModResolver) (resource : Resource)
    (local_decls : List Nat) (st : Resolutions) :
    KOut (Module × List Nat × Resolutions) :=
  match findModule st resource with
  | some m => KOut.ok (m, local_decls, st)
  | none =>
    match resolver resource with
    | none => KOut.err ImportError.resolveError
    | some source =>
      let m := Module.new source resource
      let local' := extendSet local_decls (constAssertIndices m.source)
      KOut.ok (m, local', push_module st resource m)

/-- The tail of `resolve_ty` once an external target `(ext_res, ext_id)`
has been computed (the code after the `let (ext_res, ext_id) = ...` in the
source): a target equal to the current module is a local declaration
(scheduled locally) or `MissingDecl`; an external target loads the module
(discarding its const-assert worklist), checks for reentry — the
`try_borrow_mut` fails exactly when the target is the module currently
being walked, which the preceding guard excludes — finds the declaration
by name, schedules it if untreated, and rewrites the node to share the
external cell with no path. -/
def resolve_ty_ext (names : Names) (resolver : ModResolver)
    (mod_resource : Resource) (mod_idents : List (Nat × Nat))
    (ext_res : Resource) (ty : TyExpr) (ext_id : Nat)
    (local_decls : List Nat) (extern_decls : Decls) (st : Resolutions) :
    KOut (TyExpr × List Nat × Decls × Resolutions) :=
  if ext_res = mod_resource then
    match lookupIdent mod_idents ty.ident with
    | some d => KOut.ok (ty, insertSet local_decls d, extern_decls, st)
    | none => KOut.err (ImportError.missingDecl ext_res (names ty.ident))
  else
    KOut.bind (load_module resolver ext_res [] st)
      (fun out =>
        match out with
        | (ext_mod, _, st1) =>
          -- `try_borrow_mut`: the only mutable borrow held here is the
          -- current module's, so it fails exactly when `ext_res` is the
          -- current resource — excluded by the guard above.
          if ext_res = mod_resource then
            KOut.err (ImportError.circularDependency mod_resource)
          else
            match findIdentByName names ext_mod.idents (names ext_id) with
            | none =>
              KOut.err (ImportError.missingDecl ext_res (names ext_id))
            | some e =>
              let ed' :=
                if e.1 ∈ ext_mod.treated_idents then extern_decls
                else insertDecl extern_decls ext_res e.2
              KOut.ok (TyExpr.mk none e.1 ty.args, local_decls, ed', st1))

/-- Fold a node processor over a list of type expressions, threading the
worklists and the state. -/
def resolve_tys_step
    (f : TyExpr → List Nat → Decls → Resolutions →
      KOut (TyExpr × List Nat × Decls × Resolutions)) :
    List TyExpr → List Nat → Decls → Resolutions →
      KOut (List TyExpr × List Nat × Decls × Resolutions)
  | [], ld, ed, st => KOut.ok ([], ld, ed, st)
  | t :: rest, ld, ed, st =>
    KOut.bind (f t ld ed st)
      (fun out1 =>
        match out1 with
        | (t', ld1, ed1, st1) =>
          KOut.bind (resolve_tys_step f rest ld1 ed1 st1)
            (fun out2 =>
              match out2 with
              | (rest', ld2, ed2, st2) => KOut.ok (t' :: rest', ld2, ed2, st2)))

/-- `resolve_ty` from `resolve_lazy`: first recurse into the nested type
expressions, then classify the node.  Already-treated identifiers stop the
walk; a path goes through `resolve_inline_resource`; a bare alias goes
through the alias table; anything else is a local declaration (recorded in
the local worklist) or a builtin, left untouched.  The fuel bounds the
nesting depth of type expressions. -/
def resolve_ty (fuel : Nat) (names : Names) (resolver : ModResolver)
    (mod_resource : Resource) (mod_imps : Imports)
    (mod_idents : List (Nat × Nat)) (mod_treated : List Nat)
    (ty : TyExpr) (local_decls : List Nat) (extern_decls : Decls)
    (st : Resolutions) : KOut (TyExpr × List Nat × Decls × Resolutions) :=
  match fuel with
  | 0 => KOut.fuelOut
  | fuel + 1 =>
    match ty with
    | TyExpr.mk p0 id0 args0 =>
      KOut.bind
        (resolve_tys_step
          (resolve_ty fuel names resolver mod_resource mod_imps mod_idents
            mod_treated)
          args0 local_decls extern_decls st)
        (fun out =>
          match out with
          | (args', ld1, ed1, st1) =>
            if id0 ∈ mod_treated then
              KOut.ok (TyExpr.mk p0 id0 args', ld1, ed1, st1)
            else
              match p0 with
              | some p =>
                resolve_ty_ext names resolver mod_resource mod_idents
                  (resolve_inline_resource names p mod_resource mod_imps)
                  (TyExpr.mk p0 id0 args') id0 ld1 ed1 st1
              | none =>
                match lookupImp mod_imps id0 with
                | some e =>
                  resolve_ty_ext names resolver mod_resource mod_idents
                    e.1 (TyExpr.mk p0 id0 args') e.2 ld1 ed1 st1
                | none =>
                  match lookupIdent mod_idents id0 with
                  | some d =>
                    KOut.ok (TyExpr.mk p0 id0 args', insertSet ld1 d, ed1, st1)
                  | none => KOut.ok (TyExpr.mk p0 id0 args', ld1, ed1, st1))

/-- `resolve_ty` over a list of type expressions. -/
def resolve_tys (fuel : Nat) (names : Names) (resolver : ModResolver)
    (mod_resource : Resource) (mod_imps : Imports)
    (mod_idents : List (Nat × Nat)) (mod_treated : List Nat)
    (tys : List TyExpr) (local_decls : List Nat) (extern_decls : Decls)
    (st : Resolutions) : KOut (List TyExpr × List Nat × Decls × Resolutions) :=
  resolve_tys_step
    (resolve_ty fuel names resolver mod_resource mod_imps mod_idents mod_treated)
    tys local_decls extern_decls st

/-- `resolve_decl` from `resolve_lazy`: fetch the declaration (the source
`unwrap`s the index), skip it if its identifier is already treated, else
mark it treated and walk its type expressions, writing the rewritten
expressions back. -/
def resolve_decl (fuel : Nat) (names : Names) (resolver : ModResolver)
    (module : Module) (decl : Nat) (local_decls : List Nat)
    (extern_decls : Decls) (st : Resolutions) :
    KOut (Module × List Nat × Decls × Resolutions) :=
  match module.source.global_declarations.get? decl with
  | none => KOut.panicked
  | some d =>
    match d.ident with
    | some id =>
      if id ∈ module.treated_idents then
        KOut.ok (module, local_decls, extern_decls, st)
      else
        let m1 := { module with treated_idents := insertSet module.treated_idents id }
        KOut.bind
          (resolve_tys fuel names resolver m1.resource m1.imps m1.idents
            m1.treated_idents d.tys local_decls extern_decls st)
          (fun out =>
            match out with
            | (tys', ld1, ed1, st1) =>
              KOut.ok
                ({ m1 with source :=
                    { m1.source with global_declarations :=
                        m1.source.global_declarations.set decl (d.withTys tys') } },
                  ld1, ed1, st1))
    | none =>
      KOut.bind
        (resolve_tys fuel names resolver module.resource module.imps
          module.idents module.treated_idents d.tys local_decls extern_decls st)
        (fun out =>
          match out with
          | (tys', ld1, ed1, st1) =>
            KOut.ok
              ({ module with source :=
                  { module.source with global_declarations :=
                      module.source.global_declarations.set decl (d.withTys tys') } },
                ld1, ed1, st1))

/-- The `for decl in local_decls.iter()` loop of `resolve_decls`,
collecting the next round's local worklist. -/
def resolve_decl_list (fuel : Nat) (names : Names) (resolver : ModResolver)
    (module : Module) (ds : List Nat) (next : List Nat)
    (extern_decls : Decls) (st : Resolutions) :
    KOut (Module × List Nat × Decls × Resolutions) :=
  match ds with
  | [] => KOut.ok (module, next, extern_decls, st)
  | i :: rest =>
    KOut.bind (resolve_decl fuel names resolver module i next extern_decls st)
      (fun out =>
        match out with
        | (m', next', ed', st') =>
          resolve_decl_list fuel names resolver m' rest next' ed' st')

/-- The `while !local_decls.is_empty()` loop of `resolve_decls` (two-set
swap). -/
def resolve_decls_loop (fuel : Nat) (names : Names) (resolver : ModResolver)
    (module : Module) (local_decls : List Nat) (extern_decls : Decls)
    (st : Resolutions) : KOut (Module × Decls × Resolutions) :=
  match local_decls with
  | [] => KOut.ok (module, extern_decls, st)
  | _ =>
    match fuel with
    | 0 => KOut.fuelOut
    | fuel + 1 =>
      KOut.bind
        (resolve_decl_list fuel names resolver module local_decls [] extern_decls st)
        (fun out =>
          match out with
          | (m', next, ed', st') =>
            resolve_decls_loop fuel names resolver m' next ed' st')

/-- `resolve_decls` from `resolve_lazy`: load the module (its const-assert
worklist is discarded — the call passes a fresh set), acquire it — the
`try_borrow_mut` at this top-level call site always succeeds since no other
borrow is held — run the worklist loop, and write the module back. -/
def resolve_decls (fuel : Nat) (names : Names) (resolver : ModResolver)
    (resource : Resource) (local_decls : List Nat) (extern_decls : Decls)
    (st : Resolutions) : KOut (Decls × Resolutions) :=
  KOut.bind (load_module resolver resource [] st)
    (fun out =>
      match out with
      | (module, _, st1) =>
        KOut.bind
          (resolve_decls_loop fuel names resolver module local_decls extern_decls st1)
          (fun out2 =>
            match out2 with
            | (m', ed', st2) => KOut.ok (ed', setModule st2 resource m')))

/-- The `for (resource, decls) in &mut decls` loop of `resolve_lazy`'s
outer fixed point. -/
def resolve_decls_entries (fuel : Nat) (names : Names) (resolver : ModResolver)
    (ds : Decls) (next : Decls) (st : Resolutions) : KOut (Decls × Resolutions) :=
  match ds with
  | [] => KOut.ok (next, st)
  | (r, is) :: rest =>
    KOut.bind (resolve_decls fuel names resolver r is next st)
      (fun out =>
        match out with
        | (next', st') => resolve_decls_entries fuel names resolver rest next' st')

/-- The outer `while !decls.is_empty()` fixed point of `resolve_lazy`. -/
def resolve_lazy_outer (fuel : Nat) (names : Names) (resolver : ModResolver)
    (ds : Decls) (st : Resolutions) : KOut Resolutions :=
  match ds with
  | [] => KOut.ok st
  | _ =>
    match fuel with
    | 0 => KOut.fuelOut
    | fuel + 1 =>
      KOut.bind (resolve_decls_entries fuel names resolver ds [] st)
        (fun out =>
          match out with
          | (next, st') => resolve_lazy_outer fuel names resolver next st')

/-- Map the `keep` entry identifiers of the root to declaration indices;
the first identifier missing from the root's `idents` table aborts with
`MissingDecl` (`try_collect`). -/
def keepIndices (names : Names) (idents : List (Nat × Nat))
    (resource : Resource) (keep : List Nat) (acc : List Nat) : KOut (List Nat) :=
  match keep with
  | [] => KOut.ok acc
  | id :: rest =>
    match lookupIdent idents id with
    | some i => keepIndices names idents resource rest (insertSet acc i)
    | none => KOut.err (ImportError.missingDecl resource (names id))

/-- `resolve_lazy` from `import.rs`: build the root module, seed the
worklist with the `keep` declarations and the root's const-asserts,
register the root, and run the fixed point. -/
def resolve_lazy (fuel : Nat) (names : Names) (resolver : ModResolver)
    (root : TranslationUnit) (resource : Resource) (keep : List Nat) :
    KOut Resolutions :=
  let module := Module.new root resource
  KOut.bind (keepIndices names module.idents resource keep [])
    (fun keep1 =>
      let keep_decls := extendSet keep1 (constAssertIndices module.source)
      let st := push_module Resolutions.new resource module
      resolve_lazy_outer fuel names resolver [(resource, keep_decls)] st)

/-- Classification of a type expression in the eager walk: the external
target `(resource, spelling cell)`, or `none` for a local/builtin
reference.  This is the `let (ext_res, ext_id) = if let Some(path) ... else
if let Some(..) = imports.get(..) ... else continue` head of the loop in
`resolve_eager::resolve_module`. -/
def eager_classify (names : Names) (mod_resource : Resource) (mod_imps : Imports)
    (p0 : Option (List Component)) (id0 : Nat) : Option (Resource × Nat) :=
  match p0 with
  | some p => some (resolve_inline_resource names p mod_resource mod_imps, id0)
  | none => lookupImp mod_imps id0

/-- Load, register, recursively resolve, and write back an unseen module,
given the recursive resolver `recFn` (the model's rendering of
`resolve_module(module.borrow_mut().deref_mut(), ..)` on a freshly pushed
module, whose resource joins the borrow stack). -/
def eager_resolve_new (resolver : ModResolver)
    (recFn : List Resource → Module → Resolutions → KOut (Module × Resolutions))
    (stack : List Resource) (res : Resource) (st : Resolutions) :
    KOut (Module × Resolutions) :=
  match resolver res with
  | none => KOut.err ImportError.resolveError
  | some tu =>
    let m2 := Module.new tu res
    KOut.bind (recFn (stack ++ [res]) m2 (push_module st res m2))
      (fun out =>
        match out with
        | (m2', st') => KOut.ok (m2', setModule st' res m2'))

/-- The import-loading loop of `resolve_eager::resolve_module`:
already-loaded resources are skipped, unseen ones are loaded and
recursively resolved. -/
def eager_load_imps_go (resolver : ModResolver)
    (recFn : List Resource → Module → Resolutions → KOut (Module × Resolutions))
    (stack : List Resource) : Imports → Resolutions → KOut Resolutions
  | [], st => KOut.ok st
  | e :: rest, st =>
    if (findModule st e.2.1).isSome then
      eager_load_imps_go resolver recFn stack rest st
    else
      KOut.bind (eager_resolve_new resolver recFn stack e.2.1 st)
        (fun out =>
          match out with
          | (_, st') => eager_load_imps_go resolver recFn stack rest st')

/-- Fetch the external module for a reference in the eager walk: an
already-loaded module is returned as is, but `borrow()`ing it panics if it
is currently being walked (its resource is on `stack`); an unseen module
is fetched, registered, recursively resolved, and written back. -/
def eager_get_ext (resolver : ModResolver)
    (recFn : List Resource → Module → Resolutions → KOut (Module × Resolutions))
    (stack : List Resource) (res : Resource) (st : Resolutions) :
    KOut (Module × Resolutions) :=
  match findModule st res with
  | some em =>
    if res ∈ stack then KOut.panicked else KOut.ok (em, st)
  | none => eager_resolve_new resolver recFn stack res st

/-- Fold a node processor over a list of type expressions, threading the
state (the eager walk's flat visit over nested arguments). -/
def eager_walk_tys_step (f : TyExpr → Resolutions → KOut (TyExpr × Resolutions)) :
    List TyExpr → Resolutions → KOut (List TyExpr × Resolutions)
  | [], st => KOut.ok ([], st)
  | t :: rest, st =>
    KOut.bind (f t st)
      (fun out1 =>
        match out1 with
        | (t', st1) =>
          KOut.bind (eager_walk_tys_step f rest st1)
            (fun out2 =>
              match out2 with
              | (rest', st2) => KOut.ok (t' :: rest', st2)))

/-- The per-node action of the eager walk (the body of the
`for ty in Visit::visit_mut(&mut module.source)` loop), followed by the
walk of the node's nested type expressions.  A local/builtin reference is
left untouched; a reference resolving back to the current module is left
untouched when the identifier is local, else `MissingDecl`; an external
reference is rewritten to the external declaration's cell and its path is
cleared.  `getExt` fetches (and on demand recursively resolves) the
external module; the fuel bounds the nesting depth. -/
def eager_walk_ty (fuel : Nat) (names : Names)
    (getExt : Resource → Resolutions → KOut (Module × Resolutions))
    (mod_resource : Resource) (mod_imps : Imports)
    (mod_idents : List (Nat × Nat)) (ty : TyExpr) (st : Resolutions) :
    KOut (TyExpr × Resolutions) :=
  match fuel with
  | 0 => KOut.fuelOut
  | fuel + 1 =>
    match ty with
    | TyExpr.mk p0 id0 args0 =>
      match eager_classify names mod_resource mod_imps p0 id0 with
      | none =>
        KOut.bind
          (eager_walk_tys_step
            (eager_walk_ty fuel names getExt mod_resource mod_imps mod_idents)
            args0 st)
          (fun out =>
            match out with
            | (args', st') => KOut.ok (TyExpr.mk p0 id0 args', st'))
      | some er =>
        if er.1 = mod_resource then
          if (lookupIdent mod_idents id0).isSome then
            KOut.bind
              (eager_walk_tys_step
                (eager_walk_ty fuel names getExt mod_resource mod_imps mod_idents)
                args0 st)
              (fun out =>
                match out with
                | (args', st') => KOut.ok (TyExpr.mk p0 id0 args', st'))
          else KOut.err (ImportError.missingDecl er.1 (names id0))
        else
          KOut.bind (getExt er.1 st)
            (fun out =>
              match out with
              | (em, st1) =>
                match findIdentByName names em.idents (names er.2) with
                | none => KOut.err (ImportError.missingDecl er.1 (names er.2))
                | some e =>
                  KOut.bind
                    (eager_walk_tys_step
                      (eager_walk_ty fuel names getExt mod_resource mod_imps
                        mod_idents)
                      args0 st1)
                    (fun out2 =>
                      match out2 with
                      | (args', st2) => KOut.ok (TyExpr.mk none e.1 args', st2)))

/-- The eager walk over the declarations of a unit, given the per-list
type-expression walker. -/
def eager_walk_decls_go
    (g : List TyExpr → Resolutions → KOut (List TyExpr × Resolutions)) :
    List GlobalDeclaration → Resolutions →
      KOut (List GlobalDeclaration × Resolutions)
  | [], st => KOut.ok ([], st)
  | d :: rest, st =>
    KOut.bind (g d.tys st)
      (fun out1 =>
        match out1 with
        | (tys', st1) =>
          KOut.bind (eager_walk_decls_go g rest st1)
            (fun out2 =>
              match out2 with
              | (rest', st2) => KOut.ok (d.withTys tys' :: rest', st2)))

/-- `resolve_eager::resolve_module`: first load (and recursively resolve)
every module named by an import whose resource is not yet in the map, then
walk every type expression of the unit.  The module being resolved is
mutably borrowed (its resource is on `stack`) for the whole call; the fuel
bounds the recursion depth. -/
def resolve_module_eager (fuel : Nat) (names : Names) (resolver : ModResolver)
    (stack : List Resource) (m : Module) (st : Resolutions) :
    KOut (Module × Resolutions) :=
  match fuel with
  | 0 => KOut.fuelOut
  | fuel + 1 =>
    KOut.bind
      (eager_load_imps_go resolver (resolve_module_eager fuel names resolver)
        stack m.imps st)
      (fun st1 =>
        KOut.bind
          (eager_walk_decls_go
            (eager_walk_tys_step
              (eager_walk_ty fuel names
                (eager_get_ext resolver (resolve_module_eager fuel names resolver)
                  stack)
                m.resource m.imps m.idents))
            m.source.global_declarations st1)
          (fun out =>
            match out with
            | (gds, st2) =>
              KOut.ok
                ({ m with source := { m.source with global_declarations := gds } },
                  st2)))

/-- `resolve_eager` from `import.rs`: register the root and resolve it;
the final state carries the walked root. -/
def resolve_eager (fuel : Nat) (names : Names) (resolver : ModResolver)
    (root : TranslationUnit) (resource : Resource) : KOut Resolutions :=
  let m := Module.new root resource
  let st := push_module Resolutions.new resource m
  KOut.bind (resolve_module_eager fuel names resolver [resource] m st)
    (fun out =>
      match out with
      | (m', st') => KOut.ok (setModule st' resource m'))

/-- A mangler: a pure function of the module path and the current name. -/
abbrev Mangler := Resource → String → String

/-- `mangle_decls` from `import.rs`: rename the defining identifier cell of
every named declaration of a unit to the mangler's answer for
`(resource, current name)`.  Renaming updates the ambient name store. -/
def mangle_decls (mangler : Mangler) (resource : Resource)
    (tu : TranslationUnit) (store : Names) : Names :=
  tu.global_declarations.foldl
    (fun acc d =>
      match d.ident with
      | some c => fun n => if n = c then mangler resource (acc c) else acc n
      | none => acc)
    store

/-- `Resolutions::mangle`: rename the declarations of every module except
the root (`order.first().unwrap()` — panic on an empty order). -/
def Resolutions.mangle (st : Resolutions) (mangler : Mangler) (store : Names) :
    KOut Names :=
  match st.order.head? with
  | none => KOut.panicked
  | some root_resource =>
    KOut.ok
      (st.modules.foldl
        (fun acc e =>
          if e.1 = root_resource then acc
          else mangle_decls mangler e.1 e.2.source acc)
        store)

/-- `Vec::dedup`: remove consecutive equal elements, keeping the first of
each run. -/
def dedupAdj : List String → List String
  | [] => []
  | [a] => [a]
  | a :: b :: rest =>
    if a = b then dedupAdj (b :: rest) else a :: dedupAdj (b :: rest)

/-- `Resolutions::modules()`: the modules in creation order.  The source
indexes `self.modules[res]` and panics on a missing entry; the model
returns `none` there. -/
def Resolutions.orderedModules (st : Resolutions) : Option (List Module) :=
  st.order.mapM (fun r => findModule st r)

/-- The liveness filter of `assemble(strip = true)`. -/
def liveDecl (m : Module) (d : GlobalDeclaration) : Bool :=
  d.isConstAssert ||
    (match d.ident with
      | some c => c ∈ m.treated_idents
      | none => false)

/-- `Resolutions::assemble`: concatenate the (optionally stripped)
declarations and the directives of every module in creation order, then
deduplicate adjacent equal directives. -/
def Resolutions.assemble (st : Resolutions) (strip : Bool) :
    Option TranslationUnit :=
  (st.orderedModules).map
    (fun mods =>
      { imps := ImpChain.done
        global_directives :=
          dedupAdj (mods.flatMap (fun m => m.source.global_directives))
        global_declarations :=
          mods.flatMap
            (fun m =>
              if strip then
                m.source.global_declarations.filter (fun d => liveDecl m d)
              else m.source.global_declarations) })

/-- A source resolver (the `Resolver` trait's `resolve_source`): `none`
models every provider failure. -/
abbrev SrcResolver := Resource → Option String

/-- The memoisation cache of `CacheResolver`. -/
abbrev SrcCache := List (Resource × String)

/-- `CacheResolver::resolve_source`, instrumented with the list of calls it
makes to the inner resolver's `resolve_source`: a cache hit answers from
the cache; a miss calls the inner resolver and caches a success; a failure
returns early and caches nothing. -/
def cacheResolveSource (inner : SrcResolver) (cache : SrcCache) (r : Resource) :
    Option String × SrcCache × List Resource :=
  match (cache.find? (fun e => e.1 = r)).map (fun e => e.2) with
  | some s => (some s, cache, [])
  | none =>
    match inner r with
    | some s => (some s, cache ++ [(r, s)], [r])
    | none => (none, cache, [r])

/-- A sequence of `CacheResolver::resolve_source` calls, accumulating the
inner-resolver invocations. -/
def cacheRunSources (inner : SrcResolver) (cache : SrcCache) :
    List Resource → SrcCache × List Resource
  | [] => (cache, [])
  | r :: rest =>
    match cacheResolveSource inner cache r with
    | (_, cache', calls) =>
      match cacheRunSources inner cache' rest with
      | (cache'', calls') => (cache'', calls ++ calls')

/-- `CacheResolver::resolve_module`, instrumented the same way: it
delegates to the inner resolver's `resolve_module` and neither reads nor
writes the cache, nor calls the inner `resolve_source`. -/
def cacheResolveModule (innerMod : ModResolver) (cache : SrcCache) (r : Resource) :
    Option TranslationUnit × SrcCache × List Resource :=
  (innerMod r, cache, [])

/-! ### Predicates used to state the claims -/

/-- `TyNodeIn u t`: `u` is one of the type-reference nodes of `t` (`t`
itself, or a node of one of its nested template arguments). -/
inductive TyNodeIn (u : TyExpr) : TyExpr → Prop where
  | refl : TyNodeIn u u
  | arg (t' : TyExpr) (p : Option (List Component)) (c : Nat)
      (args : List TyExpr) (h1 : t' ∈ args) (h2 : TyNodeIn u t') :
      TyNodeIn u (TyExpr.mk p c args)

/-- Is `c` the defining identifier cell of some declaration of some loaded
module? -/
def declaredCell (st : Resolutions) (c : Nat) : Bool :=
  st.modules.any
    (fun e => e.2.source.global_declarations.any (fun d => d.ident = some c))

/-- Does some loaded module declare a declaration whose defining
identifier has the same string content as cell `c`? -/
def declaredName (names : Names) (st : Resolutions) (c : Nat) : Bool :=
  st.modules.any
    (fun e =>
      e.2.source.global_declarations.any
        (fun d =>
          match d.ident with
          | some c' => names c' = names c
          | none => false))

/-- Claim C1 as stated, read off a result state: every type-reference
node of every loaded module carries no path, and its identifier cell is
the defining cell of some loaded declaration or a builtin name that no
loaded module declares. -/
def c1Claim (names : Names) (st : Resolutions) : Prop :=
  ∀ r m, findModule st r = some m →
    ∀ i d, m.source.global_declarations.get? i = some d →
      ∀ j t, d.tys.get? j = some t →
        ∀ u, TyNodeIn u t →
          u.path = none ∧
            (declaredCell st u.ident = true ∨ declaredName names st u.ident = false)

/-- The invariant the eager kernel actually establishes, per node: the
node carries no path, or it carries a path that resolves (through the
module's alias table) back to the containing module itself while its
identifier is one of that module's defining cells — such self-references
are left untouched, path included. -/
def eagerGoodNode (names : Names) (res : Resource) (imps : Imports)
    (idents : List (Nat × Nat)) (u : TyExpr) : Prop :=
  u.path = none ∨
    (∃ pp, u.path = some pp ∧ resolve_inline_resource names pp res imps = res ∧
      (lookupIdent idents u.ident).isSome = true)

/-- A module all of whose type-reference nodes satisfy the eager
invariant. -/
def moduleEagerGood (names : Names) (m : Module) : Prop :=
  ∀ i d, m.source.global_declarations.get? i = some d →
    ∀ j t, d.tys.get? j = some t → ∀ u, TyNodeIn u t →
      eagerGoodNode names m.resource m.imps m.idents u

/-- The type-reference reachability of claim C4, read on a result state:
a declaration is reachable if its defining identifier is an entry
identifier of the root, or some reachable declaration contains a
type-reference node sharing its defining cell. -/
inductive ReachableDecl (names : Names) (st : Resolutions) (root : Resource)
    (entry : List Nat) : Resource → Nat → Prop where
  | entry (i : Nat) (d : GlobalDeclaration) (c : Nat)
      (hm : ∃ m, findModule st root = some m ∧
        m.source.global_declarations.get? i = some d)
      (hc : d.ident = some c) (he : c ∈ entry) :
      ReachableDecl names st root entry root i
  | step (r : Resource) (i : Nat) (r' : Resource) (i' : Nat)
      (m : Module) (d : GlobalDeclaration) (t u : TyExpr)
      (m' : Module) (d' : GlobalDeclaration) (c' : Nat)
      (hprev : ReachableDecl names st root entry r i)
      (hm : findModule st r = some m)
      (hd : m.source.global_declarations.get? i = some d)
      (ht : t ∈ d.tys) (hu : TyNodeIn u t)
      (hm' : findModule st r' = some m')
      (hd' : m'.source.global_declarations.get? i' = some d')
      (hc' : d'.ident = some c') (hshare : u.ident = c') :
      ReachableDecl names st root entry r' i'

/-- Claim C4 as stated: a declaration is in its module's treated set iff
it is reachable from the entry identifiers via the type-reference graph or
it is a const-assert in a loaded module. -/
def c4Claim (names : Names) (st : Resolutions) (root : Resource)
    (entry : List Nat) : Prop :=
  ∀ r m, findModule st r = some m →
    ∀ i d, m.source.global_declarations.get? i = some d →
      ((∃ c, d.ident = some c ∧ c ∈ m.treated_idents) ↔
        (ReachableDecl names st root entry r i ∨ d.isConstAssert = true))

/-! ### Concrete fixtures

Small programs used to evaluate the kernel on concrete inputs.  Cells:
`0 ↦ fa` (decl of module a), `1 ↦ fb` (a's alias for b's `fb`),
`2 ↦ fb` (decl of module b), `3 ↦ fa` (b's alias for a's `fa`),
`5 ↦ other`, `6 ↦ x`, `7 ↦ K`, `10/11 ↦ x` (duplicate aliases). -/

/-- Concrete name store for the fixtures. -/
def fxNames : Names := fun n =>
  ["fa", "fb", "fb", "fa", "main", "other", "x", "K", "", "", "x", "x"].getD n ""

/-- Resource of fixture module `a`. -/
def fxRa : Resource := Resource.new [Component.normal "a"]
/-- Resource of fixture module `b`. -/
def fxRb : Resource := Resource.new [Component.normal "b"]
/-- Resource of the fixture root used for the unwalked-path run. -/
def fxRc : Resource := Resource.new [Component.normal "c"]
/-- Resource of the fixture root used for the const-assert run. -/
def fxRk : Resource := Resource.new [Component.normal "k"]

/-- Fixture unit `a`: imports `b::fb` and `fn fa` references it. -/
def fxTuA : TranslationUnit :=
  { imps := ImpChain.item [Component.normal "b"] 1 none ImpChain.done
    global_directives := ["dirA"]
    global_declarations := [GlobalDeclaration.function 0 [TyExpr.mk none 1 []]] }

/-- Fixture unit `b`: imports `a::fa` and `fn fb` references it — a cycle
with `a`. -/
def fxTuB : TranslationUnit :=
  { imps := ImpChain.item [Component.normal "a"] 3 none ImpChain.done
    global_directives := ["dirA"]
    global_declarations := [GlobalDeclaration.function 2 [TyExpr.mk none 3 []]] }

/-- Provider serving the `a`/`b` cycle. -/
def fxResolverAB : ModResolver := fun r =>
  if r = fxRb then some fxTuB else if r = fxRa then some fxTuA else none

/-- Fixture root `c`: `fn main` (the only entry) plus `fn other` whose
type reference carries an inline path that is never walked in lazy mode. -/
def fxTuC : TranslationUnit :=
  { imps := ImpChain.done
    global_directives := []
    global_declarations :=
      [GlobalDeclaration.function 4 [],
        GlobalDeclaration.function 5
          [TyExpr.mk (some [Component.rootDir, Component.normal "p",
            Component.normal "x"]) 6 []]] }

/-- Fixture root `k`: a const-assert referencing `K`, and `const K` itself;
no entry identifiers. -/
def fxTuK : TranslationUnit :=
  { imps := ImpChain.done
    global_directives := []
    global_declarations :=
      [GlobalDeclaration.constAssert [TyExpr.mk none 7 []],
        GlobalDeclaration.declaration 7 []] }

/-- A provider with no modules. -/
def fxNoResolver : ModResolver := fun _ => none

/-- Fixture unit `d` (root of an acyclic eager run): imports `e::fb` and
references it. -/
def fxTuD : TranslationUnit :=
  { imps := ImpChain.item [Component.normal "e"] 1 none ImpChain.done
    global_directives := ["dirA"]
    global_declarations := [GlobalDeclaration.function 0 [TyExpr.mk none 1 []]] }

/-- Fixture unit `e`: declares `fb`, no imports. -/
def fxTuE : TranslationUnit :=
  { imps := ImpChain.done
    global_directives := ["dirA"]
    global_declarations := [GlobalDeclaration.function 2 []] }

/-- Resource of fixture module `d`. -/
def fxRd : Resource := Resource.new [Component.normal "d"]
/-- Resource of fixture module `e`. -/
def fxRe : Resource := Resource.new [Component.normal "e"]

/-- Provider serving `e` for the acyclic eager run. -/
def fxResolverDE : ModResolver := fun r => if r = fxRe then some fxTuE else none

/-- Duplicate-alias import list for the flattening run:
`import a::x; import b::x;` with distinct alias cells both spelled `x`. -/
def fxDupImps : ImpChain :=
  ImpChain.item [Component.normal "a"] 10 none
    (ImpChain.item [Component.normal "b"] 11 none ImpChain.done)

/-! ### Result values of the fixture runs, and mangling helpers -/

/-- Result state of the lazy run on the `a`/`b` cycle. -/
def fxStAB : Resolutions :=
  match resolve_lazy 32 fxNames fxResolverAB fxTuA fxRa [0] with
  | KOut.ok st => st
  | _ => Resolutions.new

/-- Result state of the lazy run on the unwalked-path root `c`. -/
def fxStC : Resolutions :=
  match resolve_lazy 32 fxNames fxNoResolver fxTuC fxRc [4] with
  | KOut.ok st => st
  | _ => Resolutions.new

/-- Result state of the lazy run on the const-assert root `k`. -/
def fxStK : Resolutions :=
  match resolve_lazy 32 fxNames fxNoResolver fxTuK fxRk [] with
  | KOut.ok st => st
  | _ => Resolutions.new

/-- Result state of the eager run on the acyclic `d`/`e` pair. -/
def fxStDE : Resolutions :=
  match resolve_eager 32 fxNames fxResolverDE fxTuD fxRd with
  | KOut.ok st => st
  | _ => Resolutions.new

/-- The walked root module of the unwalked-path run. -/
def fxMC : Module :=
  match findModule fxStC fxRc with
  | some m => m
  | none => Module.new fxTuC fxRc

/-- The walked root module of the const-assert run. -/
def fxMK : Module :=
  match findModule fxStK fxRk with
  | some m => m
  | none => Module.new fxTuK fxRk

/-- The walked root module of the eager `d`/`e` run. -/
def fxMD : Module :=
  match findModule fxStDE fxRd with
  | some m => m
  | none => Module.new fxTuD fxRd

/-- A concrete mangler for the fixtures: double the current name. -/
def fxMangler : Mangler := fun _ n => String.append n n

/-- The name store after mangling the cycle run's result state. -/
def fxMangled : Names :=
  match Resolutions.mangle fxStAB fxMangler fxNames with
  | KOut.ok s => s
  | _ => fxNames

/-- The defining identifier cells of a unit's declarations, in order. -/
def declCells (tu : TranslationUnit) : List Nat :=
  tu.global_declarations.filterMap (fun d => d.ident)

/-- One step of the `mangle_decls` fold. -/
def mangleStep (mangler : Mangler) (resource : Resource) (acc : Names)
    (d : GlobalDeclaration) : Names :=
  match d.ident with
  | some c => fun n => if n = c then mangler resource (acc c) else acc n
  | none => acc

/-- One step of the per-module fold of `Resolutions::mangle`. -/
def mangleModStep (mangler : Mangler) (rootR : Resource) (acc : Names)
    (e : Resource × Module) : Names :=
  if e.1 = rootR then acc else mangle_decls mangler e.1 e.2.source acc

/-! ### State invariants used in the proofs -/

/-- Well-formedness of a `Resolutions` state: the creation order has no
duplicates, and a resource has a module exactly when it appears in the
order. -/
def WFRes (st : Resolutions) : Prop :=
  st.order.Nodup ∧ ∀ r, (findModule st r).isSome ↔ r ∈ st.order

/-- How every kernel step evolves the state: the creation order is only
ever extended at the end, and well-formedness is preserved. -/
def Evolves (st st' : Resolutions) : Prop :=
  (∃ l, st'.order = st.order ++ l) ∧ (WFRes st → WFRes st')

/-- Every identifier in a module's treated set is the defining identifier
of one of the module's declarations. -/
def TreatedOk (m : Module) : Prop :=
  ∀ c ∈ m.treated_idents, ∃ i d,
    m.source.global_declarations.get? i = some d ∧ d.ident = some c

/-- `TreatedOk` for every loaded module of a state. -/
def TreatedInv (st : Resolutions) : Prop :=
  ∀ r m, findModule st r = some m → TreatedOk m

/-- How every lazy-kernel step evolves the state: `Evolves`, plus the
treated sets of all loaded modules stay inside their declarations. -/
def LEvolves (st st' : Resolutions) : Prop :=
  Evolves st st' ∧ (TreatedInv st → TreatedInv st')

/-- How every eager-kernel step evolves the state: `Evolves`, and (from a
well-formed state) every module of the result state is either untouched or
fully walked (`moduleEagerGood`). -/
def EEvolves (names : Names) (st st' : Resolutions) : Prop :=
  Evolves st st' ∧
    (WFRes st → ∀ r m', findModule st' r = some m' →
      findModule st r = some m' ∨ moduleEagerGood names m')

/-! ### Helper lemmas -/

theorem popPath_eq (cs : List Component) :
    popPath cs =
      if cs = [] ∨ cs = [Component.rootDir] then none else some cs.dropLast := by
  match cs with
  | [] => rfl
  | [c] => cases c <;> simp [popPath]
  | c :: c' :: rest =>
    have h1 : c :: c' :: rest ≠ [] := by simp
    have h2 : c :: c' :: rest ≠ [Component.rootDir] := by simp
    simp only [h1, h2, or_self, if_false]
    cases c <;> cases c' <;> rfl

theorem cleanComponents_append (cs : List Component) (c : Component) :
    cleanComponents (cs ++ [c]) = cleanPush (cleanComponents cs) c := by
  simp [cleanComponents, List.foldl_append]

/-! ### Claim C8 -/

/-- Claim C8, counterexample: on `super::super` (two `..` components with
no Normal segment before either), the claimed normalisation would keep
both `..` segments to record two levels of relativity, but `clean_path`
makes the second `..` pop the first, producing the empty path; a single
`..` is kept. -/
theorem c8_counterexample :
    clean_path [Component.parentDir, Component.parentDir] ≠
      [Component.parentDir, Component.parentDir] ∧
    clean_path [Component.parentDir, Component.parentDir] = [] ∧
    clean_path [Component.parentDir] = [Component.parentDir] := by
  refine ⟨?_, rfl, rfl⟩
  decide

/-- Claim C8, amended: `.` segments are dropped except when the result so
far is empty (a leading origin marker); a `..` segment pops the previous
component whatever its kind — a Normal segment, a leading `.`, or an
earlier `..` — and is kept only when the result so far is empty or a bare
root; prefixes are dropped, roots and Normal segments are appended; two
Resources are equal exactly when their cleaned component sequences are
equal. -/
theorem c8_amended :
    (∀ cs s, cleanComponents (cs ++ [Component.prefixComp s]) = cleanComponents cs) ∧
    (∀ cs, cleanComponents (cs ++ [Component.rootDir]) =
      cleanComponents cs ++ [Component.rootDir]) ∧
    (∀ cs, cleanComponents (cs ++ [Component.curDir]) =
      if cleanComponents cs = [] then [Component.curDir] else cleanComponents cs) ∧
    (∀ cs, cleanComponents (cs ++ [Component.parentDir]) =
      if cleanComponents cs = [] then [Component.parentDir]
      else if cleanComponents cs = [Component.rootDir] then
        [Component.rootDir, Component.parentDir]
      else (cleanComponents cs).dropLast) ∧
    (∀ cs s, cleanComponents (cs ++ [Component.normal s]) =
      cleanComponents cs ++ [Component.normal s]) ∧
    (∀ p q, Resource.new p = Resource.new q ↔ clean_path p = clean_path q) := by
  refine ⟨?_, ?_, ?_, ?_, ?_, ?_⟩
  · intro cs s; rw [cleanComponents_append]; rfl
  · intro cs; rw [cleanComponents_append]; rfl
  · intro cs; rw [cleanComponents_append]
    by_cases h : cleanComponents cs = [] <;> simp [cleanPush, h]
  · intro cs; rw [cleanComponents_append]
    simp only [cleanPush, popPath_eq]
    by_cases h : cleanComponents cs = []
    · simp [h]
    · by_cases h' : cleanComponents cs = [Component.rootDir] <;>
        simp [h, h']
  · intro cs s; rw [cleanComponents_append]; rfl
  · intro p q
    constructor
    · intro h; exact congrArg Resource.path h
    · intro h; simp [Resource.new, h]

/-! ### Claim C9 -/

/-- Claim C9, counterexample: for `p = "a.b.c"`, removing the extension of
the last segment gives `"a.b"`, but `Resource::new("a.b.c")` is the
resource of `"a.b"` while `Resource::new("a.b")` strips a second
extension and is the resource of `"a"` — the two are different. -/
theorem c9_counterexample :
    stripLastExt [Component.normal "a.b.c"] = [Component.normal "a.b"] ∧
    Resource.new [Component.normal "a.b.c"] ≠
      Resource.new [Component.normal "a.b"] := by
  constructor
  · rfl
  · decide

/-- Claim C9, amended: `Resource::new(p)` equals `Resource::new(p with the
extension of its last segment removed)` whenever extension stripping is
idempotent at `p`, i.e. the stripped last segment carries no residual
extension — in particular for paths like `a/b.wesl` versus `a/b`. -/
theorem c9_amended (p : List Component)
    (h : stripLastExt (stripLastExt p) = stripLastExt p) :
    Resource.new p = Resource.new (stripLastExt p) := by
  simp [Resource.new, clean_path, h]

/-- Witness for the amended claim C9 at `a/b.wesl`. -/
theorem c9_amended_witness :
    Resource.new [Component.normal "a", Component.normal "b.wesl"] =
      Resource.new (stripLastExt [Component.normal "a", Component.normal "b.wesl"]) :=
  c9_amended [Component.normal "a", Component.normal "b.wesl"] (by decide)

/-! ### Claim C3 -/

/-- Claim C3: the code never fails on duplicate aliases.  On
`import a::x; import b::x;` (two alias cells, both spelled `x`), the
flattener — whose type is not even fallible — returns a table holding both
entries, keyed by the two distinct cells; the `DuplicateSymbol` variant of
`ImportError` is declared but never constructed anywhere in the source. -/
theorem c3_code_bug_eval :
    imported_resources fxDupImps fxRa =
      [(10, (Resource.new [Component.normal "a"], 10)),
        (11, (Resource.new [Component.normal "b"], 11))] ∧
    fxNames 10 = "x" ∧ fxNames 11 = "x" :=
  ⟨rfl, rfl, rfl⟩

/-! ### Claim C2 -/

/-- Claim C2, counterexample: on the two-module cycle `a ↔ b` (each
imports the other and references a declaration of the other),
`resolve_lazy` does not return `CircularDependency` — it succeeds, loading
both modules. -/
theorem c2_counterexample :
    (resolve_lazy 32 fxNames fxResolverAB fxTuA fxRa [0]).toOption.map
        (fun st => st.order) = some [fxRa, fxRb] ∧
    (match resolve_lazy 32 fxNames fxResolverAB fxTuA fxRa [0] with
      | KOut.err _ => False
      | _ => True) :=
  ⟨rfl, trivial⟩

/-- Claim C2, amended: on an import cycle in which each module references
a declaration of the other, `resolve_lazy` succeeds — it loads every
module of the cycle, marks the referenced declarations treated and
rewrites the cross-references to the defining cells (the `try_borrow_mut`
guards cannot fire, because a module's walk never holds another module's
borrow) — while `resolve_eager` neither succeeds nor returns
`CircularDependency`: its walk of the second module reads the first module
while that module is still mutably borrowed by the outer call, a RefCell
borrow conflict that panics. -/
theorem c2_amended :
    (resolve_lazy 32 fxNames fxResolverAB fxTuA fxRa [0]).toOption.map
        (fun st =>
          (st.order,
            st.modules.map (fun e => e.2.treated_idents),
            st.modules.map
              (fun e =>
                e.2.source.global_declarations.map
                  (fun d => d.tys.map (fun t => (t.ident, t.path)))))) =
      some ([fxRa, fxRb], [[0], [2]], [[[(2, none)]], [[(0, none)]]]) ∧
    resolve_eager 32 fxNames fxResolverAB fxTuA fxRa = KOut.panicked :=
  ⟨rfl, rfl⟩

/-! ### Claim C10 -/

/-- Claim C10, counterexample: when the inner resolver fails for a
resource, nothing is cached and a repeated `resolve_source` call invokes
the inner resolver again — twice for two requests, violating "at most once
per distinct resource". -/
theorem c10_counterexample :
    (cacheRunSources (fun _ => none) [] [fxRa, fxRa]).2 = [fxRa, fxRa] ∧
    ¬((cacheRunSources (fun _ => none) [] [fxRa, fxRa]).2.count fxRa ≤ 1) := by
  constructor
  · rfl
  · decide

theorem cacheRun_count_le (inner : SrcResolver) (r : Resource) (s : String)
    (h : inner r = some s) : ∀ (rs : List Resource) (cache : SrcCache),
    (cacheRunSources inner cache rs).2.count r ≤
      if (cache.find? (fun e => e.1 = r)).isSome then 0 else 1 := by
  intro rs
  induction rs with
  | nil => intro cache; simp [cacheRunSources]
  | cons r' rest ih =>
    intro cache
    simp only [cacheRunSources, cacheResolveSource]
    cases hfind : (cache.find? (fun e => e.1 = r')).map (fun e => e.2) with
    | some s' =>
      simp only []
      have := ih cache
      rcases hrun : cacheRunSources inner cache rest with ⟨cache'', calls'⟩
      simp only [hrun] at this ⊢
      simpa using this
    | none =>
      cases hinner : inner r' with
      | some s' =>
        simp only []
        rcases hrun : cacheRunSources inner (cache ++ [(r', s')]) rest with
          ⟨cache'', calls'⟩
        have := ih (cache ++ [(r', s')])
        simp only [hrun] at this ⊢
        by_cases hr : r' = r
        · subst hr
          have hnone : (cache.find? (fun e => e.1 = r')).isSome = false := by
            cases hf : cache.find? (fun e => e.1 = r') with
            | none => rfl
            | some e => rw [hf] at hfind; simp at hfind
          have hsome :
              ((cache ++ [(r', s')]).find? (fun e => e.1 = r')).isSome = true := by
            rw [List.find?_append]
            cases hf : cache.find? (fun e => e.1 = r') with
            | none => simp
            | some e => rw [hf] at hfind; simp at hfind
          rw [hsome] at this
          simp at this
          rw [hnone]
          simp only [Bool.false_eq_true, if_false, List.count_append]
          have hc1 : List.count r' [r'] = 1 := by simp
          omega
        · have hkeep :
              ((cache ++ [(r', s')]).find? (fun e => e.1 = r)).isSome =
                (cache.find? (fun e => e.1 = r)).isSome := by
            rw [List.find?_append]
            cases hf : cache.find? (fun e => e.1 = r) with
            | none => simp [hr]
            | some e => simp
          rw [hkeep] at this
          have hc0 : List.count r [r'] = 0 := by
            rw [List.count_eq_zero]
            simp only [List.mem_singleton]
            intro hrr; exact hr hrr.symm
          simp only [List.count_append]
          omega
      | none =>
        simp only []
        rcases hrun : cacheRunSources inner cache rest with ⟨cache'', calls'⟩
        have := ih cache
        simp only [hrun] at this ⊢
        by_cases hr : r' = r
        · subst hr; rw [hinner] at h; simp at h
        · have hc0 : List.count r [r'] = 0 := by
            rw [List.count_eq_zero]
            simp only [List.mem_singleton]
            intro hrr; exact hr hrr.symm
          simp only [List.count_append]
          omega

/-- Claim C10, amended: `CacheResolver::resolve_module` delegates directly
to the inner resolver's `resolve_module`, neither reading nor writing the
memoisation cache and making no `resolve_source` call; `resolve_source`
alone consults and populates the cache, and invokes the inner resolver's
`resolve_source` at most once per distinct resource for which the inner
resolver succeeds — failed fetches are not cached and are re-invoked. -/
theorem c10_amended :
    (∀ (innerMod : ModResolver) (cache : SrcCache) (r : Resource),
      cacheResolveModule innerMod cache r = (innerMod r, cache, [])) ∧
    (∀ (inner : SrcResolver) (rs : List Resource) (r : Resource) (s : String),
      inner r = some s → (cacheRunSources inner [] rs).2.count r ≤ 1) := by
  constructor
  · intro innerMod cache r; rfl
  · intro inner rs r s h
    have := cacheRun_count_le inner r s h rs []
    simpa using this

/-- Witness for the amended claim C10: a succeeding inner resolver is
invoked at most once for `a` across the call sequence `[a, a, b]`. -/
theorem c10_amended_witness :
    (cacheRunSources (fun _ => some "src") [] [fxRa, fxRa, fxRb]).2.count fxRa ≤ 1 :=
  c10_amended.2 (fun _ => some "src") [fxRa, fxRa, fxRb] fxRa "src" rfl

/-! ### Association-list lemmas about the module map -/

theorem findVal_append_single (l : List (Resource × Module)) (r : Resource)
    (m : Module) (r' : Resource) :
    ((l ++ [(r, m)]).find? (fun e => e.1 = r')).map (fun e => e.2) =
      match (l.find? (fun e => e.1 = r')).map (fun e => e.2) with
      | some m' => some m'
      | none => if r = r' then some m else none := by
  induction l with
  | nil => by_cases h : r = r' <;> simp [List.find?, h]
  | cons a l ih =>
    by_cases h : a.1 = r'
    · simp [List.find?_cons, h]
    · have hd : (decide (a.1 = r')) = false := by simp [h]
      simp only [List.cons_append, List.find?_cons, hd, Bool.false_eq_true,
        if_false]
      exact ih

theorem findModule_push (st : Resolutions) (r : Resource) (m : Module)
    (r' : Resource) :
    findModule (push_module st r m) r' =
      match findModule st r' with
      | some m' => some m'
      | none => if r = r' then some m else none := by
  unfold findModule push_module
  exact findVal_append_single st.modules r m r'

theorem findModule_push_isSome (st : Resolutions) (r : Resource) (m : Module)
    (r' : Resource) :
    (findModule (push_module st r m) r').isSome ↔
      ((findModule st r').isSome ∨ r' = r) := by
  rw [findModule_push]
  cases h : findModule st r' with
  | some m' => simp
  | none =>
    by_cases hr : r = r'
    · simp [hr]
    · have hr' : ¬(r' = r) := fun h' => hr h'.symm
      simp [hr, hr']

theorem findVal_setKey (l : List (Resource × Module)) (r : Resource)
    (m : Module) (r' : Resource) :
    ((l.map (fun e => if e.1 = r then (r, m) else e)).find?
        (fun e => e.1 = r')).map (fun e => e.2) =
      if r' = r then
        (if ((l.find? (fun e => e.1 = r)).map (fun e => e.2)).isSome then some m
          else none)
      else (l.find? (fun e => e.1 = r')).map (fun e => e.2) := by
  induction l with
  | nil => by_cases h : r' = r <;> simp [List.find?, h]
  | cons a l ih =>
    by_cases ha : a.1 = r
    · by_cases hr : r' = r
      · subst hr
        simp [List.find?_cons, ha]
      · have har' : ¬(a.1 = r') := by rw [ha]; exact fun h => hr h.symm
        have hrr' : ¬(r = r') := fun h => hr h.symm
        simp only [List.map_cons, if_pos ha, List.find?_cons]
        have h1 : (decide (r = r')) = false := by simp [hrr']
        have h2 : (decide (a.1 = r')) = false := by simp [har']
        simp only [h1, h2, Bool.false_eq_true, if_false]
        simpa [hr] using ih
    · by_cases hr' : a.1 = r'
      · by_cases hr : r' = r
        · exact absurd (hr'.trans hr) ha
        · simp [List.find?_cons, ha, hr', hr]
      · simp only [List.map_cons, if_neg ha, List.find?_cons]
        have h2 : (decide (a.1 = r')) = false := by simp [hr']
        have h3 : (decide (a.1 = r)) = false := by simp [ha]
        simp only [h2, h3, Bool.false_eq_true, if_false]
        by_cases hr : r' = r
        · subst hr
          simpa using ih
        · simpa [hr] using ih

theorem findModule_set (st : Resolutions) (r : Resource) (m : Module)
    (r' : Resource) :
    findModule (setModule st r m) r' =
      if r' = r then (if (findModule st r).isSome then some m else none)
      else findModule st r' := by
  unfold findModule setModule
  dsimp only
  exact findVal_setKey st.modules r m r'

theorem findModule_set_isSome (st : Resolutions) (r : Resource) (m : Module)
    (r' : Resource) :
    (findModule (setModule st r m) r').isSome = (findModule st r').isSome := by
  rw [findModule_set]
  by_cases hr : r' = r
  · subst hr
    cases h : findModule st r' with
    | some m' => simp [h]
    | none => simp [h]
  · simp [hr]

theorem findModule_set_ne (st : Resolutions) (r : Resource) (m : Module)
    (r' : Resource) (h : r' ≠ r) :
    findModule (setModule st r m) r' = findModule st r' := by
  rw [findModule_set]; simp [h]

theorem findModule_set_self (st : Resolutions) (r : Resource) (m : Module)
    (h : (findModule st r).isSome) :
    findModule (setModule st r m) r = some m := by
  rw [findModule_set]; simp [h]

/-! ### `Evolves` algebra -/

theorem evolves_refl (st : Resolutions) : Evolves st st :=
  ⟨⟨[], by simp⟩, id⟩

theorem evolves_trans {s1 s2 s3 : Resolutions} (h1 : Evolves s1 s2)
    (h2 : Evolves s2 s3) : Evolves s1 s3 := by
  obtain ⟨⟨l1, hl1⟩, hw1⟩ := h1
  obtain ⟨⟨l2, hl2⟩, hw2⟩ := h2
  exact ⟨⟨l1 ++ l2, by rw [hl2, hl1, List.append_assoc]⟩, fun h => hw2 (hw1 h)⟩

theorem evolves_push (st : Resolutions) (r : Resource) (m : Module)
    (h : findModule st r = none) : Evolves st (push_module st r m) := by
  refine ⟨⟨[r], by simp [push_module]⟩, ?_⟩
  rintro ⟨hnd, hiff⟩
  constructor
  · have hni : r ∉ st.order := by
      intro hmem
      have := (hiff r).mpr hmem
      rw [h] at this
      simp at this
    simp [push_module, List.nodup_append, hni, hnd]
  · intro r'
    rw [findModule_push_isSome]
    show _ ↔ r' ∈ st.order ++ [r]
    rw [List.mem_append, List.mem_singleton, hiff]

theorem evolves_set (st : Resolutions) (r : Resource) (m : Module) :
    Evolves st (setModule st r m) := by
  refine ⟨⟨[], by simp [setModule]⟩, ?_⟩
  rintro ⟨hnd, hiff⟩
  refine ⟨hnd, fun r' => ?_⟩
  show ((findModule (setModule st r m) r').isSome) ↔ r' ∈ st.order
  rw [findModule_set_isSome, hiff]

theorem load_module_evolves (resolver : ModResolver) (r : Resource)
    (ld : List Nat) (st : Resolutions) (m : Module) (ld' : List Nat)
    (st' : Resolutions)
    (h : load_module resolver r ld st = KOut.ok (m, ld', st')) :
    Evolves st st' := by
  unfold load_module at h
  cases hf : findModule st r with
  | some m0 =>
    rw [hf] at h
    simp only [KOut.ok.injEq, Prod.mk.injEq] at h
    obtain ⟨_, _, h3⟩ := h
    exact h3 ▸ evolves_refl st
  | none =>
    rw [hf] at h
    cases hr : resolver r with
    | none => rw [hr] at h; simp at h
    | some tu =>
      rw [hr] at h
      simp only [KOut.ok.injEq, Prod.mk.injEq] at h
      obtain ⟨_, _, h3⟩ := h
      exact h3 ▸ evolves_push st r (Module.new tu r) hf

/-! ### Lazy-kernel evolution lemmas -/

theorem levolves_refl (st : Resolutions) : LEvolves st st :=
  ⟨evolves_refl st, id⟩

theorem levolves_trans {s1 s2 s3 : Resolutions} (h1 : LEvolves s1 s2)
    (h2 : LEvolves s2 s3) : LEvolves s1 s3 :=
  ⟨evolves_trans h1.1 h2.1, fun h => h2.2 (h1.2 h)⟩

theorem TreatedOk_new (tu : TranslationUnit) (r : Resource) :
    TreatedOk (Module.new tu r) := by
  intro c hc
  simp [Module.new] at hc

theorem TreatedInv_push (st : Resolutions) (r : Resource) (m : Module)
    (hm : TreatedOk m) (h : TreatedInv st) : TreatedInv (push_module st r m) := by
  intro r' m' hf
  rw [findModule_push] at hf
  cases hf0 : findModule st r' with
  | some m0 =>
    rw [hf0] at hf
    simp only [Option.some.injEq] at hf
    exact hf ▸ h r' m0 hf0
  | none =>
    rw [hf0] at hf
    by_cases hr : r = r'
    · rw [if_pos hr] at hf
      simp only [Option.some.injEq] at hf
      exact hf ▸ hm
    · rw [if_neg hr] at hf
      simp at hf

theorem TreatedInv_set (st : Resolutions) (r : Resource) (m : Module)
    (hm : TreatedOk m) (h : TreatedInv st) : TreatedInv (setModule st r m) := by
  intro r' m' hf
  rw [findModule_set] at hf
  by_cases hr : r' = r
  · rw [if_pos hr] at hf
    by_cases hs : (findModule st r).isSome
    · rw [if_pos hs] at hf
      simp at hf
      exact hf ▸ hm
    · rw [if_neg hs] at hf; simp at hf
  · rw [if_neg hr] at hf
    exact h r' m' hf

theorem load_module_levolves (resolver : ModResolver) (r : Resource)
    (ld : List Nat) (st : Resolutions) (m : Module) (ld' : List Nat)
    (st' : Resolutions)
    (h : load_module resolver r ld st = KOut.ok (m, ld', st')) :
    LEvolves st st' ∧ (TreatedInv st → TreatedOk m) := by
  unfold load_module at h
  cases hf : findModule st r with
  | some m0 =>
    rw [hf] at h
    simp only [KOut.ok.injEq, Prod.mk.injEq] at h
    obtain ⟨h1, _, h3⟩ := h
    subst h3
    exact ⟨levolves_refl st, fun hi => h1 ▸ hi r m0 hf⟩
  | none =>
    rw [hf] at h
    cases hr : resolver r with
    | none => rw [hr] at h; simp at h
    | some tu =>
      rw [hr] at h
      simp only [KOut.ok.injEq, Prod.mk.injEq] at h
      obtain ⟨h1, _, h3⟩ := h
      subst h3
      refine ⟨⟨evolves_push st r (Module.new tu r) hf, ?_⟩, ?_⟩
      · exact fun hi => TreatedInv_push st r _ (TreatedOk_new tu r) hi
      · exact fun _ => h1 ▸ TreatedOk_new tu r

theorem resolve_ty_ext_levolves (names : Names) (resolver : ModResolver)
    (res : Resource) (idents : List (Nat × Nat)) (er : Resource) (ty : TyExpr)
    (eid : Nat) (ld : List Nat) (ed : Decls) (st : Resolutions)
    (out : TyExpr × List Nat × Decls × Resolutions)
    (h : resolve_ty_ext names resolver res idents er ty eid ld ed st =
      KOut.ok out) : LEvolves st out.2.2.2 := by
  unfold resolve_ty_ext at h
  by_cases he : er = res
  · rw [if_pos he] at h
    cases hl : lookupIdent idents ty.ident with
    | some d =>
      rw [hl] at h
      simp only [KOut.ok.injEq] at h
      rw [← h]
      exact levolves_refl st
    | none => rw [hl] at h; simp at h
  · rw [if_neg he] at h
    cases hload : load_module resolver er [] st with
    | ok lout =>
      obtain ⟨em, ld0, st1⟩ := lout
      rw [hload] at h
      simp only [KOut.bind_ok] at h
      rw [if_neg he] at h
      cases hfind : findIdentByName names em.idents (names eid) with
      | none => rw [hfind] at h; simp at h
      | some e =>
        rw [hfind] at h
        simp only [KOut.ok.injEq] at h
        have := (load_module_levolves resolver er [] st em ld0 st1 hload).1
        rw [← h]
        exact this
    | err e => rw [hload] at h; simp at h
    | panicked => rw [hload] at h; simp at h
    | fuelOut => rw [hload] at h; simp at h

theorem resolve_tys_step_levolves
    (f : TyExpr → List Nat → Decls → Resolutions →
      KOut (TyExpr × List Nat × Decls × Resolutions))
    (hf : ∀ t ld ed st out, f t ld ed st = KOut.ok out → LEvolves st out.2.2.2) :
    ∀ (tys : List TyExpr) (ld : List Nat) (ed : Decls) (st : Resolutions) out,
      resolve_tys_step f tys ld ed st = KOut.ok out → LEvolves st out.2.2.2 := by
  intro tys
  induction tys with
  | nil =>
    intro ld ed st out h
    unfold resolve_tys_step at h
    simp only [KOut.ok.injEq] at h
    rw [← h]
    exact levolves_refl st
  | cons t rest ih =>
    intro ld ed st out h
    unfold resolve_tys_step at h
    cases h1 : f t ld ed st with
    | ok out1 =>
      obtain ⟨t', ld1, ed1, st1⟩ := out1
      rw [h1] at h
      simp only [KOut.bind_ok] at h
      cases h2 : resolve_tys_step f rest ld1 ed1 st1 with
      | ok out2 =>
        obtain ⟨rest', ld2, ed2, st2⟩ := out2
        rw [h2] at h
        simp only [KOut.bind_ok, KOut.ok.injEq] at h
        have e1 := hf t ld ed st _ h1
        have e2 := ih ld1 ed1 st1 _ h2
        rw [← h]
        exact levolves_trans e1 e2
      | err e => rw [h2] at h; simp at h
      | panicked => rw [h2] at h; simp at h
      | fuelOut => rw [h2] at h; simp at h
    | err e => rw [h1] at h; simp at h
    | panicked => rw [h1] at h; simp at h
    | fuelOut => rw [h1] at h; simp at h


theorem withTys_ident (d : GlobalDeclaration) (t : List TyExpr) :
    (d.withTys t).ident = d.ident := by
  cases d <;> rfl

theorem withTys_tys (d : GlobalDeclaration) (t : List TyExpr) :
    (d.withTys t).tys = t ∨ (d.withTys t).tys = [] := by
  cases d <;> simp [GlobalDeclaration.withTys, GlobalDeclaration.tys]

theorem get?_set_general {α : Type} (l : List α) (i j : Nat) (a : α) :
    (l.set i a).get? j = if i = j ∧ j < l.length then some a else l.get? j := by
  induction l generalizing i j with
  | nil => simp
  | cons x l ih =>
    cases i with
    | zero =>
      cases j with
      | zero => simp
      | succ j => simp
    | succ i =>
      cases j with
      | zero => simp
      | succ j =>
        simp only [List.set_cons_succ, List.get?_cons_succ, ih i j,
          List.length_cons]
        by_cases hij : i = j
        · subst hij
          by_cases hl : i < l.length
          · simp [hl]
          · have hnot : ¬(i + 1 < l.length + 1) := by omega
            simp [hl, hnot]
        · have hnot : ¬(i + 1 = j + 1) := by omega
          simp [hij, hnot]

theorem TreatedOk_setDecl (m : Module) (decl : Nat) (d : GlobalDeclaration)
    (tys' : List TyExpr)
    (hd : m.source.global_declarations.get? decl = some d) (h : TreatedOk m) :
    TreatedOk
      { m with source :=
          { m.source with global_declarations :=
              m.source.global_declarations.set decl (d.withTys tys') } } := by
  intro c hc
  obtain ⟨i, d0, hi, hid⟩ := h c hc
  by_cases hdi : i = decl
  · subst hdi
    refine ⟨i, d.withTys tys', ?_, ?_⟩
    · have hlen : i < m.source.global_declarations.length := by
        by_contra hcon
        push_neg at hcon
        rw [List.get?_eq_none.2 hcon] at hi
        exact Option.noConfusion hi
      simp only [get?_set_general]
      simp [hlen]
    · rw [withTys_ident]
      rw [hi] at hd
      simp only [Option.some.injEq] at hd
      rw [← hd]
      exact hid
  · refine ⟨i, d0, ?_, hid⟩
    simp only [get?_set_general]
    have hnot : ¬(decl = i ∧ i < m.source.global_declarations.length) := by
      intro hcon; exact hdi hcon.1.symm
    simp only [hnot, if_false]
    exact hi

theorem TreatedOk_insert (m : Module) (id : Nat)
    (hid : ∃ i d, m.source.global_declarations.get? i = some d ∧
      d.ident = some id) (h : TreatedOk m) :
    TreatedOk { m with treated_idents := insertSet m.treated_idents id } := by
  intro c hc
  simp only [insertSet] at hc
  by_cases hmem : id ∈ m.treated_idents
  · rw [if_pos hmem] at hc
    exact h c hc
  · rw [if_neg hmem] at hc
    rw [List.mem_append, List.mem_singleton] at hc
    cases hc with
    | inl hc => exact h c hc
    | inr hc => exact hc ▸ hid

theorem resolve_ty_levolves (names : Names) (resolver : ModResolver)
    (res : Resource) (imps : Imports) (idents : List (Nat × Nat))
    (treated : List Nat) :
    ∀ (fuel : Nat) (ty : TyExpr) (ld : List Nat) (ed : Decls)
      (st : Resolutions) out,
      resolve_ty fuel names resolver res imps idents treated ty ld ed st =
        KOut.ok out → LEvolves st out.2.2.2 := by
  intro fuel
  induction fuel with
  | zero => intro ty ld ed st out h; simp [resolve_ty] at h
  | succ n ih =>
    intro ty ld ed st out h
    obtain ⟨p0, id0, args0⟩ := ty
    rw [resolve_ty] at h
    cases h1 : resolve_tys_step
        (resolve_ty n names resolver res imps idents treated) args0 ld ed st with
    | ok out1 =>
      obtain ⟨args', ld1, ed1, st1⟩ := out1
      rw [h1] at h
      simp only [KOut.bind_ok] at h
      have e1 := resolve_tys_step_levolves _
        (fun t ld' ed' st' out' hh => ih t ld' ed' st' out' hh)
        args0 ld ed st _ h1
      by_cases ht : id0 ∈ treated
      · rw [if_pos ht] at h
        simp only [KOut.ok.injEq] at h
        rw [← h]
        exact e1
      · rw [if_neg ht] at h
        cases p0 with
        | some p =>
          exact levolves_trans e1 (resolve_ty_ext_levolves names resolver res idents
            _ _ _ ld1 ed1 st1 out h)
        | none =>
          cases hlk : lookupImp imps id0 with
          | some e =>
            rw [hlk] at h
            exact levolves_trans e1 (resolve_ty_ext_levolves names resolver res idents
              _ _ _ ld1 ed1 st1 out h)
          | none =>
            rw [hlk] at h
            cases hli : lookupIdent idents id0 with
            | some d =>
              rw [hli] at h
              simp only [KOut.ok.injEq] at h
              rw [← h]
              exact e1
            | none =>
              rw [hli] at h
              simp only [KOut.ok.injEq] at h
              rw [← h]
              exact e1
    | err e => rw [h1] at h; simp at h
    | panicked => rw [h1] at h; simp at h
    | fuelOut => rw [h1] at h; simp at h

theorem resolve_decl_levolves (fuel : Nat) (names : Names)
    (resolver : ModResolver) (module : Module) (decl : Nat) (ld : List Nat)
    (ed : Decls) (st : Resolutions) out
    (h : resolve_decl fuel names resolver module decl ld ed st = KOut.ok out) :
    LEvolves st out.2.2.2 ∧ (TreatedOk module → TreatedOk out.1) := by
  unfold resolve_decl at h
  split at h
  · simp at h
  next d hd =>
    split at h
    next id hid =>
      split at h
      next hmem =>
        simp only [KOut.ok.injEq] at h
        rw [← h]
        exact ⟨levolves_refl st, fun x => x⟩
      next hmem =>
        dsimp only at h
        cases h1 : resolve_tys fuel names resolver module.resource module.imps
            module.idents (insertSet module.treated_idents id) d.tys ld ed st with
        | ok out1 =>
          obtain ⟨tys', ld1, ed1, st1⟩ := out1
          rw [h1] at h
          simp only [KOut.bind_ok, KOut.ok.injEq] at h
          have e1 := resolve_tys_step_levolves _
            (fun t ld' ed' st' out' hh =>
              resolve_ty_levolves names resolver module.resource module.imps
                module.idents (insertSet module.treated_idents id) fuel
                t ld' ed' st' out' hh)
            d.tys ld ed st _ h1
          constructor
          · rw [← h]
            exact e1
          · intro htr
            rw [← h]
            exact TreatedOk_setDecl
              { module with treated_idents := insertSet module.treated_idents id }
              decl d tys' hd
              (TreatedOk_insert module id ⟨decl, d, hd, hid⟩ htr)
        | err e => rw [h1] at h; simp at h
        | panicked => rw [h1] at h; simp at h
        | fuelOut => rw [h1] at h; simp at h
    next hid =>
      cases h1 : resolve_tys fuel names resolver module.resource module.imps
          module.idents module.treated_idents d.tys ld ed st with
      | ok out1 =>
        obtain ⟨tys', ld1, ed1, st1⟩ := out1
        rw [h1] at h
        simp only [KOut.bind_ok, KOut.ok.injEq] at h
        have e1 := resolve_tys_step_levolves _
          (fun t ld' ed' st' out' hh =>
            resolve_ty_levolves names resolver module.resource module.imps
              module.idents module.treated_idents fuel t ld' ed' st' out' hh)
          d.tys ld ed st _ h1
        constructor
        · rw [← h]
          exact e1
        · intro htr
          rw [← h]
          exact TreatedOk_setDecl _ decl d tys' hd htr
      | err e => rw [h1] at h; simp at h
      | panicked => rw [h1] at h; simp at h
      | fuelOut => rw [h1] at h; simp at h


theorem resolve_decl_list_levolves (fuel : Nat) (names : Names)
    (resolver : ModResolver) :
    ∀ (ds : List Nat) (module : Module) (next : List Nat) (ed : Decls)
      (st : Resolutions) out,
      resolve_decl_list fuel names resolver module ds next ed st = KOut.ok out →
      LEvolves st out.2.2.2 ∧ (TreatedOk module → TreatedOk out.1) := by
  intro ds
  induction ds with
  | nil =>
    intro module next ed st out h
    unfold resolve_decl_list at h
    simp only [KOut.ok.injEq] at h
    rw [← h]
    exact ⟨levolves_refl st, fun x => x⟩
  | cons i rest ih =>
    intro module next ed st out h
    unfold resolve_decl_list at h
    cases h1 : resolve_decl fuel names resolver module i next ed st with
    | ok out1 =>
      obtain ⟨m', next', ed', st'⟩ := out1
      rw [h1] at h
      simp only [KOut.bind_ok] at h
      have e1 := resolve_decl_levolves fuel names resolver module i next ed st _ h1
      have e2 := ih m' next' ed' st' out h
      exact ⟨levolves_trans e1.1 e2.1, fun htr => e2.2 (e1.2 htr)⟩
    | err e => rw [h1] at h; simp at h
    | panicked => rw [h1] at h; simp at h
    | fuelOut => rw [h1] at h; simp at h

theorem resolve_decls_loop_levolves (names : Names) (resolver : ModResolver) :
    ∀ (fuel : Nat) (module : Module) (ld : List Nat) (ed : Decls)
      (st : Resolutions) out,
      resolve_decls_loop fuel names resolver module ld ed st = KOut.ok out →
      LEvolves st out.2.2 ∧ (TreatedOk module → TreatedOk out.1) := by
  intro fuel
  induction fuel with
  | zero =>
    intro module ld ed st out h
    unfold resolve_decls_loop at h
    cases ld with
    | nil =>
      simp only [KOut.ok.injEq] at h
      rw [← h]
      exact ⟨levolves_refl st, fun x => x⟩
    | cons a as => simp at h
  | succ n ih =>
    intro module ld ed st out h
    unfold resolve_decls_loop at h
    cases ld with
    | nil =>
      simp only [KOut.ok.injEq] at h
      rw [← h]
      exact ⟨levolves_refl st, fun x => x⟩
    | cons a as =>
      dsimp only at h
      cases h1 : resolve_decl_list n names resolver module (a :: as) [] ed st with
      | ok out1 =>
        obtain ⟨m', next, ed', st'⟩ := out1
        rw [h1] at h
        simp only [KOut.bind_ok] at h
        have e1 := resolve_decl_list_levolves n names resolver (a :: as) module
          [] ed st _ h1
        have e2 := ih m' next ed' st' out h
        exact ⟨levolves_trans e1.1 e2.1, fun htr => e2.2 (e1.2 htr)⟩
      | err e => rw [h1] at h; simp at h
      | panicked => rw [h1] at h; simp at h
      | fuelOut => rw [h1] at h; simp at h

theorem resolve_decls_levolves (fuel : Nat) (names : Names)
    (resolver : ModResolver) (resource : Resource) (ld : List Nat) (ed : Decls)
    (st : Resolutions) out
    (h : resolve_decls fuel names resolver resource ld ed st = KOut.ok out) :
    LEvolves st out.2 := by
  unfold resolve_decls at h
  cases h1 : load_module resolver resource [] st with
  | ok out1 =>
    obtain ⟨module, ld0, st1⟩ := out1
    rw [h1] at h
    simp only [KOut.bind_ok] at h
    cases h2 : resolve_decls_loop fuel names resolver module ld ed st1 with
    | ok out2 =>
      obtain ⟨m', ed', st2⟩ := out2
      rw [h2] at h
      simp only [KOut.bind_ok, KOut.ok.injEq] at h
      have e1 := load_module_levolves resolver resource [] st module ld0 st1 h1
      have e2 := resolve_decls_loop_levolves names resolver fuel module ld ed st1 _ h2
      rw [← h]
      refine ⟨evolves_trans (evolves_trans e1.1.1 e2.1.1) (evolves_set st2 resource m'), ?_⟩
      intro hinv
      have hinv1 := e1.1.2 hinv
      have hinv2 := e2.1.2 hinv1
      exact TreatedInv_set st2 resource m' (e2.2 (e1.2 hinv)) hinv2
    | err e => rw [h2] at h; simp at h
    | panicked => rw [h2] at h; simp at h
    | fuelOut => rw [h2] at h; simp at h
  | err e => rw [h1] at h; simp at h
  | panicked => rw [h1] at h; simp at h
  | fuelOut => rw [h1] at h; simp at h

theorem resolve_decls_entries_levolves (fuel : Nat) (names : Names)
    (resolver : ModResolver) :
    ∀ (ds : Decls) (next : Decls) (st : Resolutions) out,
      resolve_decls_entries fuel names resolver ds next st = KOut.ok out →
      LEvolves st out.2 := by
  intro ds
  induction ds with
  | nil =>
    intro next st out h
    unfold resolve_decls_entries at h
    simp only [KOut.ok.injEq] at h
    rw [← h]
    exact levolves_refl st
  | cons e rest ih =>
    intro next st out h
    unfold resolve_decls_entries at h
    cases h1 : resolve_decls fuel names resolver e.1 e.2 next st with
    | ok out1 =>
      obtain ⟨next', st'⟩ := out1
      rw [h1] at h
      simp only [KOut.bind_ok] at h
      exact levolves_trans (resolve_decls_levolves fuel names resolver e.1 e.2 next st _ h1)
        (ih next' st' out h)
    | err e => rw [h1] at h; simp at h
    | panicked => rw [h1] at h; simp at h
    | fuelOut => rw [h1] at h; simp at h

theorem resolve_lazy_outer_levolves (names : Names) (resolver : ModResolver) :
    ∀ (fuel : Nat) (ds : Decls) (st : Resolutions) (st' : Resolutions),
      resolve_lazy_outer fuel names resolver ds st = KOut.ok st' →
      LEvolves st st' := by
  intro fuel
  induction fuel with
  | zero =>
    intro ds st st' h
    unfold resolve_lazy_outer at h
    cases ds with
    | nil =>
      simp only [KOut.ok.injEq] at h
      rw [← h]
      exact levolves_refl st
    | cons a as => simp at h
  | succ n ih =>
    intro ds st st' h
    unfold resolve_lazy_outer at h
    cases ds with
    | nil =>
      simp only [KOut.ok.injEq] at h
      rw [← h]
      exact levolves_refl st
    | cons a as =>
      dsimp only at h
      cases h1 : resolve_decls_entries n names resolver (a :: as) [] st with
      | ok out1 =>
        obtain ⟨next, st1⟩ := out1
        rw [h1] at h
        simp only [KOut.bind_ok] at h
        exact levolves_trans (resolve_decls_entries_levolves n names resolver
          (a :: as) [] st _ h1) (ih next st1 st' h)
      | err e => rw [h1] at h; simp at h
      | panicked => rw [h1] at h; simp at h
      | fuelOut => rw [h1] at h; simp at h

theorem WFRes_single (r : Resource) (m : Module) :
    WFRes (push_module Resolutions.new r m) := by
  constructor
  · simp [push_module, Resolutions.new]
  · intro r'
    rw [findModule_push_isSome]
    constructor
    · intro hsome
      cases hsome with
      | inl hs => simp [findModule, Resolutions.new, List.find?] at hs
      | inr he => simp [push_module, Resolutions.new, he]
    · intro hmem
      simp [push_module, Resolutions.new] at hmem
      exact Or.inr hmem

theorem resolve_lazy_wf (fuel : Nat) (names : Names) (resolver : ModResolver)
    (root : TranslationUnit) (resource : Resource) (keep : List Nat)
    (st : Resolutions)
    (h : resolve_lazy fuel names resolver root resource keep = KOut.ok st) :
    WFRes st ∧ st.order.head? = some resource ∧ TreatedInv st := by
  unfold resolve_lazy at h
  dsimp only at h
  cases h1 : keepIndices names (Module.new root resource).idents resource keep [] with
  | ok keep1 =>
    rw [h1] at h
    simp only [KOut.bind_ok] at h
    have hwf0 : WFRes (push_module Resolutions.new resource (Module.new root resource)) :=
      WFRes_single resource (Module.new root resource)
    have hinv0 : TreatedInv (push_module Resolutions.new resource (Module.new root resource)) := by
      intro r' m' hf
      rw [findModule_push] at hf
      have : findModule Resolutions.new r' = none := by
        simp [findModule, Resolutions.new, List.find?]
      rw [this] at hf
      by_cases hr : resource = r'
      · rw [if_pos hr] at hf
        simp only [Option.some.injEq] at hf
        rw [← hf]
        exact TreatedOk_new root resource
      · rw [if_neg hr] at hf
        exact absurd hf (by simp)
    have he := resolve_lazy_outer_levolves names resolver fuel _ _ st h
    obtain ⟨⟨l, hl⟩, hw⟩ := he.1
    refine ⟨hw hwf0, ?_, he.2 hinv0⟩
    rw [hl]
    simp [push_module, Resolutions.new]
  | err e => rw [h1] at h; simp at h
  | panicked => rw [h1] at h; simp at h
  | fuelOut => rw [h1] at h; simp at h


/-! ### Eager-kernel evolution lemmas -/

theorem eevolves_refl (names : Names) (st : Resolutions) : EEvolves names st st :=
  ⟨evolves_refl st, fun _ r m' hf => Or.inl hf⟩

theorem eevolves_trans {names : Names} {s1 s2 s3 : Resolutions}
    (h1 : EEvolves names s1 s2) (h2 : EEvolves names s2 s3) :
    EEvolves names s1 s3 := by
  refine ⟨evolves_trans h1.1 h2.1, fun hwf r m' hf => ?_⟩
  cases h2.2 (h1.1.2 hwf) r m' hf with
  | inl hf2 =>
    cases h1.2 hwf r m' hf2 with
    | inl hf1 => exact Or.inl hf1
    | inr hg => exact Or.inr hg
  | inr hg => exact Or.inr hg

theorem eager_resolve_new_eevolves (names : Names) (resolver : ModResolver)
    (recFn : List Resource → Module → Resolutions → KOut (Module × Resolutions))
    (hrec : ∀ stack m st out, recFn stack m st = KOut.ok out →
      EEvolves names st out.2 ∧ moduleEagerGood names out.1)
    (stack : List Resource) (res : Resource) (st : Resolutions) out
    (hnone : findModule st res = none)
    (h : eager_resolve_new resolver recFn stack res st = KOut.ok out) :
    EEvolves names st out.2 ∧ moduleEagerGood names out.1 := by
  unfold eager_resolve_new at h
  cases hr : resolver res with
  | none => rw [hr] at h; simp at h
  | some tu =>
    rw [hr] at h
    dsimp only at h
    cases h1 : recFn (stack ++ [res]) (Module.new tu res)
        (push_module st res (Module.new tu res)) with
    | ok out1 =>
      obtain ⟨m2', st'⟩ := out1
      rw [h1] at h
      simp only [KOut.bind_ok, KOut.ok.injEq] at h
      have hp := evolves_push st res (Module.new tu res) hnone
      have hrc := hrec _ _ _ _ h1
      rw [← h]
      refine ⟨⟨evolves_trans (evolves_trans hp hrc.1.1) (evolves_set st' res m2'), ?_⟩, hrc.2⟩
      intro hwf r m' hf
      have hwfp : WFRes (push_module st res (Module.new tu res)) := hp.2 hwf
      have hwf' : WFRes st' := hrc.1.1.2 hwfp
      by_cases hrr : r = res
      · rw [hrr] at hf
        have hsome : (findModule st' res).isSome := by
          rw [hwf'.2 res]
          obtain ⟨l2, hl2⟩ := hrc.1.1.1
          rw [hl2]
          have hin : res ∈ (push_module st res (Module.new tu res)).order := by
            simp [push_module]
          exact List.mem_append.2 (Or.inl hin)
        rw [findModule_set_self st' res m2' hsome] at hf
        simp only [Option.some.injEq] at hf
        exact Or.inr (hf ▸ hrc.2)
      · rw [findModule_set_ne st' res m2' r hrr] at hf
        cases hrc.1.2 hwfp r m' hf with
        | inl hf1 =>
          rw [findModule_push] at hf1
          cases hf0 : findModule st r with
          | some m0 =>
            rw [hf0] at hf1
            have hm : m0 = m' := by simpa using hf1
            rw [hm]
            exact Or.inl rfl
          | none =>
            rw [hf0] at hf1
            by_cases hq : res = r
            · exact absurd hq.symm hrr
            · simp only [hq, if_false] at hf1
              simp at hf1
        | inr hg => exact Or.inr hg
    | err e => rw [h1] at h; simp at h
    | panicked => rw [h1] at h; simp at h
    | fuelOut => rw [h1] at h; simp at h

theorem eager_load_imps_go_eevolves (names : Names) (resolver : ModResolver)
    (recFn : List Resource → Module → Resolutions → KOut (Module × Resolutions))
    (hrec : ∀ stack m st out, recFn stack m st = KOut.ok out →
      EEvolves names st out.2 ∧ moduleEagerGood names out.1)
    (stack : List Resource) :
    ∀ (imps : Imports) (st : Resolutions) (st' : Resolutions),
      eager_load_imps_go resolver recFn stack imps st = KOut.ok st' →
      EEvolves names st st' := by
  intro imps
  induction imps with
  | nil =>
    intro st st' h
    unfold eager_load_imps_go at h
    simp only [KOut.ok.injEq] at h
    rw [← h]
    exact eevolves_refl names st
  | cons e rest ih =>
    intro st st' h
    unfold eager_load_imps_go at h
    by_cases hf : (findModule st e.2.1).isSome
    · rw [if_pos hf] at h
      exact ih st st' h
    · rw [if_neg hf] at h
      cases h1 : eager_resolve_new resolver recFn stack e.2.1 st with
      | ok out1 =>
        obtain ⟨m1, st1⟩ := out1
        rw [h1] at h
        simp only [KOut.bind_ok] at h
        have hn : findModule st e.2.1 = none := by
          cases hq : findModule st e.2.1 with
          | none => rfl
          | some m0 => rw [hq] at hf; simp at hf
        have e1 := eager_resolve_new_eevolves names resolver recFn hrec stack
          e.2.1 st _ hn h1
        exact eevolves_trans e1.1 (ih st1 st' h)
      | err e2 => rw [h1] at h; simp at h
      | panicked => rw [h1] at h; simp at h
      | fuelOut => rw [h1] at h; simp at h

theorem eager_get_ext_eevolves (names : Names) (resolver : ModResolver)
    (recFn : List Resource → Module → Resolutions → KOut (Module × Resolutions))
    (hrec : ∀ stack m st out, recFn stack m st = KOut.ok out →
      EEvolves names st out.2 ∧ moduleEagerGood names out.1)
    (stack : List Resource) (res : Resource) (st : Resolutions) out
    (h : eager_get_ext resolver recFn stack res st = KOut.ok out) :
    EEvolves names st out.2 := by
  unfold eager_get_ext at h
  cases hf : findModule st res with
  | some em =>
    rw [hf] at h
    dsimp only at h
    by_cases hs : res ∈ stack
    · rw [if_pos hs] at h; simp at h
    · rw [if_neg hs] at h
      simp only [KOut.ok.injEq] at h
      rw [← h]
      exact eevolves_refl names st
  | none =>
    rw [hf] at h
    exact (eager_resolve_new_eevolves names resolver recFn hrec stack res st
      out hf h).1


theorem eager_classify_none (names : Names) (res : Resource) (imps : Imports)
    (p0 : Option (List Component)) (id0 : Nat)
    (h : eager_classify names res imps p0 id0 = none) : p0 = none := by
  cases p0 with
  | none => rfl
  | some p => simp [eager_classify] at h

theorem eager_classify_some_path (names : Names) (res : Resource)
    (imps : Imports) (p : List Component) (id0 : Nat)
    (er : Resource × Nat)
    (h : eager_classify names res imps (some p) id0 = some er) :
    er = (resolve_inline_resource names p res imps, id0) := by
  simp only [eager_classify, Option.some.injEq] at h
  exact h.symm

theorem tyNodeIn_mk (u : TyExpr) (p : Option (List Component)) (c : Nat)
    (args : List TyExpr) (h : TyNodeIn u (TyExpr.mk p c args)) :
    u = TyExpr.mk p c args ∨ ∃ t' ∈ args, TyNodeIn u t' := by
  cases h with
  | refl => exact Or.inl rfl
  | arg t' p' c' args' h1 h2 => exact Or.inr ⟨t', h1, h2⟩

theorem eager_walk_tys_step_good (names : Names) (P : TyExpr → Prop)
    (f : TyExpr → Resolutions → KOut (TyExpr × Resolutions))
    (hf : ∀ t st out, f t st = KOut.ok out →
      EEvolves names st out.2 ∧ ∀ u, TyNodeIn u out.1 → P u) :
    ∀ (tys : List TyExpr) (st : Resolutions) out,
      eager_walk_tys_step f tys st = KOut.ok out →
      EEvolves names st out.2 ∧ ∀ t' ∈ out.1, ∀ u, TyNodeIn u t' → P u := by
  intro tys
  induction tys with
  | nil =>
    intro st out h
    unfold eager_walk_tys_step at h
    simp only [KOut.ok.injEq] at h
    rw [← h]
    exact ⟨eevolves_refl names st, by simp⟩
  | cons t rest ih =>
    intro st out h
    unfold eager_walk_tys_step at h
    cases h1 : f t st with
    | ok out1 =>
      obtain ⟨t', st1⟩ := out1
      rw [h1] at h
      simp only [KOut.bind_ok] at h
      cases h2 : eager_walk_tys_step f rest st1 with
      | ok out2 =>
        obtain ⟨rest', st2⟩ := out2
        rw [h2] at h
        simp only [KOut.bind_ok, KOut.ok.injEq] at h
        have e1 := hf t st _ h1
        have e2 := ih st1 _ h2
        rw [← h]
        refine ⟨eevolves_trans e1.1 e2.1, ?_⟩
        intro t'' htm u hu
        rw [List.mem_cons] at htm
        cases htm with
        | inl hq => exact e1.2 u (hq ▸ hu)
        | inr hq => exact e2.2 t'' hq u hu
      | err e => rw [h2] at h; simp at h
      | panicked => rw [h2] at h; simp at h
      | fuelOut => rw [h2] at h; simp at h
    | err e => rw [h1] at h; simp at h
    | panicked => rw [h1] at h; simp at h
    | fuelOut => rw [h1] at h; simp at h

theorem eager_walk_ty_good (names : Names)
    (getExt : Resource → Resolutions → KOut (Module × Resolutions))
    (res : Resource) (imps : Imports) (idents : List (Nat × Nat))
    (hget : ∀ r st out, getExt r st = KOut.ok out → EEvolves names st out.2) :
    ∀ (fuel : Nat) (ty : TyExpr) (st : Resolutions) out,
      eager_walk_ty fuel names getExt res imps idents ty st = KOut.ok out →
      EEvolves names st out.2 ∧
        ∀ u, TyNodeIn u out.1 → eagerGoodNode names res imps idents u := by
  intro fuel
  induction fuel with
  | zero => intro ty st out h; simp [eager_walk_ty] at h
  | succ n ih =>
    intro ty st out h
    obtain ⟨p0, id0, args0⟩ := ty
    rw [eager_walk_ty] at h
    cases hc : eager_classify names res imps p0 id0 with
    | none =>
      rw [hc] at h
      cases h1 : eager_walk_tys_step
          (eager_walk_ty n names getExt res imps idents) args0 st with
      | ok out1 =>
        obtain ⟨args', st'⟩ := out1
        rw [h1] at h
        simp only [KOut.bind_ok, KOut.ok.injEq] at h
        have hp0 := eager_classify_none names res imps p0 id0 hc
        have e1 := eager_walk_tys_step_good names _ _
          (fun t st' out' hh => ih t st' out' hh) args0 st _ h1
        rw [← h]
        refine ⟨e1.1, ?_⟩
        intro u hu
        cases tyNodeIn_mk u p0 id0 args' hu with
        | inl hq =>
          rw [hq, hp0]
          exact Or.inl rfl
        | inr hq =>
          obtain ⟨t', ht', hu'⟩ := hq
          exact e1.2 t' ht' u hu'
      | err e => rw [h1] at h; simp at h
      | panicked => rw [h1] at h; simp at h
      | fuelOut => rw [h1] at h; simp at h
    | some er =>
      rw [hc] at h
      dsimp only at h
      by_cases her : er.1 = res
      · rw [if_pos her] at h
        by_cases hli : (lookupIdent idents id0).isSome
        · rw [if_pos hli] at h
          cases h1 : eager_walk_tys_step
              (eager_walk_ty n names getExt res imps idents) args0 st with
          | ok out1 =>
            obtain ⟨args', st'⟩ := out1
            rw [h1] at h
            simp only [KOut.bind_ok, KOut.ok.injEq] at h
            have e1 := eager_walk_tys_step_good names _ _
              (fun t st' out' hh => ih t st' out' hh) args0 st _ h1
            rw [← h]
            refine ⟨e1.1, ?_⟩
            intro u hu
            cases tyNodeIn_mk u p0 id0 args' hu with
            | inl hq =>
              cases p0 with
              | none => rw [hq]; exact Or.inl rfl
              | some p =>
                have hcc := eager_classify_some_path names res imps p id0 er hc
                rw [hq]
                refine Or.inr ⟨p, rfl, ?_, ?_⟩
                · rw [← show er.1 = resolve_inline_resource names p res imps
                    from by rw [hcc]]
                  exact her
                · exact hli
            | inr hq =>
              obtain ⟨t', ht', hu'⟩ := hq
              exact e1.2 t' ht' u hu'
          | err e => rw [h1] at h; simp at h
          | panicked => rw [h1] at h; simp at h
          | fuelOut => rw [h1] at h; simp at h
        · rw [if_neg hli] at h
          simp at h
      · rw [if_neg her] at h
        cases h1 : getExt er.1 st with
        | ok out1 =>
          obtain ⟨em, st1⟩ := out1
          rw [h1] at h
          simp only [KOut.bind_ok] at h
          cases h2 : findIdentByName names em.idents (names er.2) with
          | none => rw [h2] at h; simp at h
          | some e =>
            rw [h2] at h
            dsimp only at h
            cases h3 : eager_walk_tys_step
                (eager_walk_ty n names getExt res imps idents) args0 st1 with
            | ok out3 =>
              obtain ⟨args', st2⟩ := out3
              rw [h3] at h
              simp only [KOut.bind_ok, KOut.ok.injEq] at h
              have e0 := hget er.1 st _ h1
              have e1 := eager_walk_tys_step_good names _ _
                (fun t st' out' hh => ih t st' out' hh) args0 st1 _ h3
              rw [← h]
              refine ⟨eevolves_trans e0 e1.1, ?_⟩
              intro u hu
              cases tyNodeIn_mk u none e.1 args' hu with
              | inl hq => rw [hq]; exact Or.inl rfl
              | inr hq =>
                obtain ⟨t', ht', hu'⟩ := hq
                exact e1.2 t' ht' u hu'
            | err e4 => rw [h3] at h; simp at h
            | panicked => rw [h3] at h; simp at h
            | fuelOut => rw [h3] at h; simp at h
        | err e => rw [h1] at h; simp at h
        | panicked => rw [h1] at h; simp at h
        | fuelOut => rw [h1] at h; simp at h

theorem eager_walk_decls_go_good (names : Names) (res : Resource)
    (imps : Imports) (idents : List (Nat × Nat))
    (g : List TyExpr → Resolutions → KOut (List TyExpr × Resolutions))
    (hg : ∀ tys st out, g tys st = KOut.ok out → EEvolves names st out.2 ∧
      ∀ t' ∈ out.1, ∀ u, TyNodeIn u t' →
        eagerGoodNode names res imps idents u) :
    ∀ (gds : List GlobalDeclaration) (st : Resolutions) out,
      eager_walk_decls_go g gds st = KOut.ok out →
      EEvolves names st out.2 ∧
        ∀ i d', out.1.get? i = some d' → ∀ j t, d'.tys.get? j = some t →
          ∀ u, TyNodeIn u t → eagerGoodNode names res imps idents u := by
  intro gds
  induction gds with
  | nil =>
    intro st out h
    unfold eager_walk_decls_go at h
    simp only [KOut.ok.injEq] at h
    rw [← h]
    exact ⟨eevolves_refl names st, by simp⟩
  | cons d rest ih =>
    intro st out h
    unfold eager_walk_decls_go at h
    cases h1 : g d.tys st with
    | ok out1 =>
      obtain ⟨tys', st1⟩ := out1
      rw [h1] at h
      simp only [KOut.bind_ok] at h
      cases h2 : eager_walk_decls_go g rest st1 with
      | ok out2 =>
        obtain ⟨rest', st2⟩ := out2
        rw [h2] at h
        simp only [KOut.bind_ok, KOut.ok.injEq] at h
        have e1 := hg d.tys st _ h1
        have e2 := ih st1 _ h2
        rw [← h]
        refine ⟨eevolves_trans e1.1 e2.1, ?_⟩
        intro i d' hi j t hj u hu
        cases i with
        | zero =>
          simp only [List.get?_cons_zero, Option.some.injEq] at hi
          rw [← hi] at hj
          cases withTys_tys d tys' with
          | inl hq =>
            rw [hq] at hj
            have htm : t ∈ tys' := List.get?_mem hj
            exact e1.2 t htm u hu
          | inr hq =>
            rw [hq] at hj
            simp at hj
        | succ i =>
          simp only [List.get?_cons_succ] at hi
          exact e2.2 i d' hi j t hj u hu
      | err e => rw [h2] at h; simp at h
      | panicked => rw [h2] at h; simp at h
      | fuelOut => rw [h2] at h; simp at h
    | err e => rw [h1] at h; simp at h
    | panicked => rw [h1] at h; simp at h
    | fuelOut => rw [h1] at h; simp at h

theorem resolve_module_eager_good (names : Names) (resolver : ModResolver) :
    ∀ (fuel : Nat) (stack : List Resource) (m : Module) (st : Resolutions) out,
      resolve_module_eager fuel names resolver stack m st = KOut.ok out →
      EEvolves names st out.2 ∧ moduleEagerGood names out.1 := by
  intro fuel
  induction fuel with
  | zero => intro stack m st out h; simp [resolve_module_eager] at h
  | succ n ih =>
    intro stack m st out h
    rw [resolve_module_eager] at h
    cases h1 : eager_load_imps_go resolver (resolve_module_eager n names resolver)
        stack m.imps st with
    | ok st1 =>
      rw [h1] at h
      simp only [KOut.bind_ok] at h
      cases h2 : eager_walk_decls_go
          (eager_walk_tys_step
            (eager_walk_ty n names
              (eager_get_ext resolver (resolve_module_eager n names resolver)
                stack)
              m.resource m.imps m.idents))
          m.source.global_declarations st1 with
      | ok out2 =>
        obtain ⟨gds, st2⟩ := out2
        rw [h2] at h
        simp only [KOut.bind_ok, KOut.ok.injEq] at h
        have hrec : ∀ stack' m' st' out',
            resolve_module_eager n names resolver stack' m' st' = KOut.ok out' →
            EEvolves names st' out'.2 ∧ moduleEagerGood names out'.1 :=
          fun stack' m' st' out' hh => ih stack' m' st' out' hh
        have hget : ∀ r st' out',
            eager_get_ext resolver (resolve_module_eager n names resolver)
              stack r st' = KOut.ok out' → EEvolves names st' out'.2 :=
          fun r st' out' hh =>
            eager_get_ext_eevolves names resolver _ hrec stack r st' out' hh
        have hf := fun t st' out' hh =>
          eager_walk_ty_good names _ m.resource m.imps m.idents hget n
            t st' out' hh
        have hg := fun tys st' out' hh =>
          eager_walk_tys_step_good names _ _ hf tys st' out' hh
        have e1 := eager_load_imps_go_eevolves names resolver _ hrec stack
          m.imps st st1 h1
        have e2 := eager_walk_decls_go_good names m.resource m.imps m.idents
          _ hg m.source.global_declarations st1 _ h2
        rw [← h]
        refine ⟨eevolves_trans e1 e2.1, ?_⟩
        intro i d' hi j t hj u hu
        exact e2.2 i d' hi j t hj u hu
      | err e => rw [h2] at h; simp at h
      | panicked => rw [h2] at h; simp at h
      | fuelOut => rw [h2] at h; simp at h
    | err e => rw [h1] at h; simp at h
    | panicked => rw [h1] at h; simp at h
    | fuelOut => rw [h1] at h; simp at h

theorem resolve_eager_wf (fuel : Nat) (names : Names) (resolver : ModResolver)
    (root : TranslationUnit) (resource : Resource) (st : Resolutions)
    (h : resolve_eager fuel names resolver root resource = KOut.ok st) :
    WFRes st ∧ st.order.head? = some resource := by
  unfold resolve_eager at h
  dsimp only at h
  cases h1 : resolve_module_eager fuel names resolver [resource]
      (Module.new root resource)
      (push_module Resolutions.new resource (Module.new root resource)) with
  | ok out1 =>
    obtain ⟨m', st'⟩ := out1
    rw [h1] at h
    simp only [KOut.bind_ok, KOut.ok.injEq] at h
    have hwf0 := WFRes_single resource (Module.new root resource)
    have e1 := resolve_module_eager_good names resolver fuel [resource]
      (Module.new root resource) _ _ h1
    have hwf' : WFRes st' := e1.1.1.2 hwf0
    have hwfall : WFRes (setModule st' resource m') :=
      (evolves_set st' resource m').2 hwf'
    rw [← h]
    refine ⟨hwfall, ?_⟩
    obtain ⟨l, hl⟩ := e1.1.1.1
    show (setModule st' resource m').order.head? = some resource
    have : (setModule st' resource m').order = st'.order := by simp [setModule]
    rw [this, hl]
    simp [push_module, Resolutions.new]
  | err e => rw [h1] at h; simp at h
  | panicked => rw [h1] at h; simp at h
  | fuelOut => rw [h1] at h; simp at h

theorem resolve_eager_good (fuel : Nat) (names : Names) (resolver : ModResolver)
    (root : TranslationUnit) (resource : Resource) (st : Resolutions)
    (h : resolve_eager fuel names resolver root resource = KOut.ok st) :
    ∀ r m, findModule st r = some m → moduleEagerGood names m := by
  unfold resolve_eager at h
  dsimp only at h
  cases h1 : resolve_module_eager fuel names resolver [resource]
      (Module.new root resource)
      (push_module Resolutions.new resource (Module.new root resource)) with
  | ok out1 =>
    obtain ⟨m', st'⟩ := out1
    rw [h1] at h
    simp only [KOut.bind_ok, KOut.ok.injEq] at h
    have hwf0 := WFRes_single resource (Module.new root resource)
    have e1 := resolve_module_eager_good names resolver fuel [resource]
      (Module.new root resource) _ _ h1
    have hwf' : WFRes st' := e1.1.1.2 hwf0
    intro r m hf
    rw [← h] at hf
    by_cases hr : r = resource
    · subst hr
      have hsome : (findModule st' r).isSome := by
        rw [hwf'.2 r]
        obtain ⟨l, hl⟩ := e1.1.1.1
        rw [hl]
        refine List.mem_append.2 (Or.inl ?_)
        simp [push_module, Resolutions.new]
      rw [findModule_set_self st' r m' hsome] at hf
      simp only [Option.some.injEq] at hf
      exact hf ▸ e1.2
    · rw [findModule_set_ne st' resource m' r hr] at hf
      cases e1.1.2 hwf0 r m hf with
      | inl hf0 =>
        rw [findModule_push] at hf0
        have hnone : findModule Resolutions.new r = none := by
          simp [findModule, Resolutions.new, List.find?]
        rw [hnone] at hf0
        by_cases hq : resource = r
        · exact absurd hq.symm hr
        · rw [if_neg hq] at hf0
          exact absurd hf0 (by simp)
      | inr hg => exact hg
  | err e => rw [h1] at h; simp at h
  | panicked => rw [h1] at h; simp at h
  | fuelOut => rw [h1] at h; simp at h

/-! ### Claim C6 -/

/-- Claim C6: after a successful `resolve_lazy` or `resolve_eager`, the
first entry of the creation order is the root path, and every resource
that has a module in the state appears exactly once in the order. -/
theorem c6_order_root_unique (fuel : Nat) (names : Names)
    (resolver : ModResolver) (root : TranslationUnit) (resource : Resource)
    (keep : List Nat) (st : Resolutions)
    (h : resolve_lazy fuel names resolver root resource keep = KOut.ok st ∨
      resolve_eager fuel names resolver root resource = KOut.ok st) :
    st.order.head? = some resource ∧
      ∀ r, (findModule st r).isSome → st.order.count r = 1 := by
  have hwf : WFRes st ∧ st.order.head? = some resource := by
    cases h with
    | inl hl =>
      have hw := resolve_lazy_wf fuel names resolver root resource keep st hl
      exact ⟨hw.1, hw.2.1⟩
    | inr he => exact resolve_eager_wf fuel names resolver root resource st he
  exact ⟨hwf.2, fun r hr =>
    List.count_eq_one_of_mem hwf.1.1 ((hwf.1.2 r).mp hr)⟩

/-- The C6 invariant evaluated on the cycle run: the root `a` heads the
order, and `b`, which has a module, appears exactly once. -/
theorem c6_order_root_unique_witness :
    fxStAB.order.head? = some fxRa ∧ fxStAB.order.count fxRb = 1 := by
  have h := c6_order_root_unique 32 fxNames fxResolverAB fxTuA fxRa [0]
    fxStAB (Or.inl rfl)
  exact ⟨h.1, h.2 fxRb rfl⟩

/-! ### Claim C4 -/

/-- Claim C4 counterexample: the const-assert run succeeds, yet the
claimed equivalence fails on the root's const-assert, which has no
defining identifier (so it can never be a member of the treated set)
while the claim's right-hand side holds of it. -/
theorem c4_counterexample :
    resolve_lazy 32 fxNames fxNoResolver fxTuK fxRk [] = KOut.ok fxStK ∧
      ¬ c4Claim fxNames fxStK fxRk [] := by
  refine ⟨rfl, fun hcl => ?_⟩
  have h := hcl fxRk fxMK rfl 0
    (GlobalDeclaration.constAssert [TyExpr.mk none 7 []]) rfl
  obtain ⟨c, hc, _⟩ := h.mpr (Or.inr rfl)
  exact Option.noConfusion hc

/-- Claim C4 (amended): after a successful `resolve_lazy`, every
identifier in a module's treated set is the defining identifier of one of
that module's declarations; const-asserts, having no defining identifier,
are never members of a treated set, although they are walked — the
expansion is seeded from the entry identifiers together with the root's
const-asserts, so on the const-assert fixture the declaration `K`,
referenced only by the root's const-assert, ends up treated. -/
theorem c4_amended :
    (∀ (fuel : Nat) (names : Names) (resolver : ModResolver)
        (root : TranslationUnit) (resource : Resource) (keep : List Nat)
        (st : Resolutions),
      resolve_lazy fuel names resolver root resource keep = KOut.ok st →
      ∀ r m, findModule st r = some m → ∀ c, c ∈ m.treated_idents →
        ∃ i d, m.source.global_declarations.get? i = some d ∧
          d.ident = some c) ∧
    (resolve_lazy 32 fxNames fxNoResolver fxTuK fxRk [] = KOut.ok fxStK ∧
      (findModule fxStK fxRk).map (fun m => m.treated_idents) = some [7]) := by
  refine ⟨?_, rfl, rfl⟩
  intro fuel names resolver root resource keep st h r m hm c hc
  exact (resolve_lazy_wf fuel names resolver root resource keep st h).2.2
    r m hm c hc

/-- The amended C4 evaluated on the const-assert run: the treated cell `7`
is the defining identifier of a declaration of the root. -/
theorem c4_amended_witness :
    ∃ i d, fxMK.source.global_declarations.get? i = some d ∧
      d.ident = some 7 :=
  c4_amended.1 32 fxNames fxNoResolver fxTuK fxRk [] fxStK rfl fxRk fxMK rfl
    7 (by decide)

/-! ### Claim C1 -/

/-- Claim C1 counterexample: a successful lazy run on root `c` leaves the
inline path of the never-walked declaration `other` in place, refuting
the claim that every type-reference node of every loaded module ends up
without a path component. -/
theorem c1_counterexample :
    resolve_lazy 32 fxNames fxNoResolver fxTuC fxRc [4] = KOut.ok fxStC ∧
      ¬ c1Claim fxNames fxStC := by
  refine ⟨rfl, fun hcl => ?_⟩
  have h := hcl fxRc fxMC rfl 1
    (GlobalDeclaration.function 5
      [TyExpr.mk (some [Component.rootDir, Component.normal "p",
        Component.normal "x"]) 6 []]) rfl 0
    (TyExpr.mk (some [Component.rootDir, Component.normal "p",
      Component.normal "x"]) 6 []) rfl _ TyNodeIn.refl
  exact Option.noConfusion h.1

/-- Claim C1 (amended): after a successful `resolve_eager`, every
type-reference node of every loaded module either carries no path
component, or is an explicit self-reference — its path resolves through
the module's alias table back to the module itself and its identifier is
a defining cell of that module; such nodes are left untouched, path
included.  For `resolve_lazy` not even the path half holds, since
declarations unreachable from the entry set are never walked. -/
theorem c1_amended (fuel : Nat) (names : Names) (resolver : ModResolver)
    (root : TranslationUnit) (resource : Resource) (st : Resolutions)
    (h : resolve_eager fuel names resolver root resource = KOut.ok st) :
    ∀ r m, findModule st r = some m →
      ∀ i d, m.source.global_declarations.get? i = some d →
        ∀ j t, d.tys.get? j = some t → ∀ u, TyNodeIn u t →
          eagerGoodNode names m.resource m.imps m.idents u :=
  fun r m hm =>
    resolve_eager_good fuel names resolver root resource st h r m hm

/-- The amended C1 evaluated on the eager `d`/`e` run: the rewritten
reference node of the walked root satisfies the invariant. -/
theorem c1_amended_witness :
    eagerGoodNode fxNames fxMD.resource fxMD.imps fxMD.idents
      (TyExpr.mk none 2 []) :=
  c1_amended 32 fxNames fxResolverDE fxTuD fxRd fxStDE rfl fxRd fxMD rfl 0
    (GlobalDeclaration.function 0 [TyExpr.mk none 2 []]) rfl 0
    (TyExpr.mk none 2 []) rfl (TyExpr.mk none 2 []) TyNodeIn.refl

/-! ### Claim C5 -/

theorem mapM_option_total {α β : Type} (f : α → Option β) :
    ∀ l : List α, (∀ a ∈ l, (f a).isSome) → ∃ bs, l.mapM f = some bs := by
  intro l
  induction l with
  | nil => intro _; exact ⟨[], rfl⟩
  | cons a rest ih =>
    intro h
    obtain ⟨b, hb⟩ := Option.isSome_iff_exists.mp (h a (by simp))
    obtain ⟨bs, hbs⟩ := ih (fun x hx => h x (by simp [hx]))
    refine ⟨b :: bs, ?_⟩
    rw [List.mapM_cons, hb, hbs]
    rfl

theorem orderedModules_of_wf (st : Resolutions) (hwf : WFRes st) :
    ∃ mods, st.orderedModules = some mods :=
  mapM_option_total (fun r => findModule st r) st.order
    (fun r hr => (hwf.2 r).mpr hr)

theorem dedupAdj_cons_head (x : String) (xs : List String) :
    ∃ t, dedupAdj (x :: xs) = x :: t := by
  induction xs generalizing x with
  | nil => exact ⟨[], rfl⟩
  | cons y r ih =>
    by_cases hxy : x = y
    · subst hxy
      obtain ⟨t, ht⟩ := ih x
      refine ⟨t, ?_⟩
      have hstep : dedupAdj (x :: x :: r) =
          if x = x then dedupAdj (x :: r) else x :: dedupAdj (x :: r) := rfl
      rw [hstep, if_pos rfl, ht]
    · refine ⟨dedupAdj (y :: r), ?_⟩
      have hstep : dedupAdj (x :: y :: r) =
          if x = y then dedupAdj (y :: r) else x :: dedupAdj (y :: r) := rfl
      rw [hstep, if_neg hxy]

theorem dedupAdj_chain (l : List String) :
    List.Chain' (fun a b => ¬(a = b)) (dedupAdj l) := by
  induction l with
  | nil => exact List.chain'_nil
  | cons x xs ih =>
    cases xs with
    | nil => exact List.chain'_singleton x
    | cons y r =>
      have hstep : dedupAdj (x :: y :: r) =
          if x = y then dedupAdj (y :: r) else x :: dedupAdj (y :: r) := rfl
      by_cases hxy : x = y
      · rw [hstep, if_pos hxy]
        exact ih
      · rw [hstep, if_neg hxy]
        obtain ⟨t, ht⟩ := dedupAdj_cons_head y r
        rw [ht]
        rw [ht] at ih
        exact List.chain'_cons.mpr ⟨hxy, ih⟩

/-- Claim C5: after a successful resolution, the modules of the state can
be listed in creation order (root first), and `assemble(strip = true)`
returns exactly the unit whose declarations are, module by module in that
order, the declarations kept by the liveness filter (const-asserts and
declarations whose defining identifier is treated) in source order, and
whose directives are the concatenated directives of all modules in the
same order with adjacent equal entries deduplicated — the result contains
no adjacent equal pair. -/
theorem c5_assemble_strip (fuel : Nat) (names : Names)
    (resolver : ModResolver) (root : TranslationUnit) (resource : Resource)
    (keep : List Nat) (st : Resolutions)
    (h : resolve_lazy fuel names resolver root resource keep = KOut.ok st ∨
      resolve_eager fuel names resolver root resource = KOut.ok st) :
    ∃ mods, st.orderedModules = some mods ∧
      st.order.head? = some resource ∧
      st.assemble true = some
        { imps := ImpChain.done
          global_directives :=
            dedupAdj (mods.flatMap (fun m => m.source.global_directives))
          global_declarations :=
            mods.flatMap
              (fun m =>
                m.source.global_declarations.filter
                  (fun d => liveDecl m d)) } ∧
      List.Chain' (fun a b => ¬(a = b))
        (dedupAdj (mods.flatMap (fun m => m.source.global_directives))) := by
  have hwf : WFRes st ∧ st.order.head? = some resource := by
    cases h with
    | inl hl =>
      have hw := resolve_lazy_wf fuel names resolver root resource keep st hl
      exact ⟨hw.1, hw.2.1⟩
    | inr he => exact resolve_eager_wf fuel names resolver root resource st he
  obtain ⟨mods, hmods⟩ := orderedModules_of_wf st hwf.1
  refine ⟨mods, hmods, hwf.2, ?_, dedupAdj_chain _⟩
  unfold Resolutions.assemble
  rw [hmods]
  rfl

/-- The C5 characterization evaluated on the cycle run: the assembled
unit keeps the treated functions of `a` and `b` and deduplicates the
repeated directive. -/
theorem c5_assemble_strip_witness :
    fxStAB.assemble true = some
      { imps := ImpChain.done
        global_directives := ["dirA"]
        global_declarations :=
          [GlobalDeclaration.function 0 [TyExpr.mk none 2 []],
            GlobalDeclaration.function 2 [TyExpr.mk none 0 []]] } := by
  obtain ⟨mods, hmods, hhead, hass, hch⟩ :=
    c5_assemble_strip 32 fxNames fxResolverAB fxTuA fxRa [0] fxStAB
      (Or.inl rfl)
  have hmv : mods = (fxStAB.orderedModules).getD [] := by
    rw [hmods]
    rfl
  rw [hmv] at hass
  rw [hass]
  rfl

/-! ### Claim C7 -/

theorem mangle_decls_eq_foldl (mangler : Mangler) (resource : Resource)
    (tu : TranslationUnit) (store : Names) :
    mangle_decls mangler resource tu store =
      tu.global_declarations.foldl (mangleStep mangler resource) store := rfl

theorem mangleFold_frame (mangler : Mangler) (resource : Resource) :
    ∀ (l : List GlobalDeclaration) (store : Names) (c : Nat),
      ¬ c ∈ l.filterMap (fun d => d.ident) →
      l.foldl (mangleStep mangler resource) store c = store c := by
  intro l
  induction l with
  | nil => intro store c _; rfl
  | cons d rest ih =>
    intro store c hc
    rw [List.foldl_cons]
    cases hd : d.ident with
    | none =>
      simp only [List.filterMap_cons, hd] at hc
      have hstep : mangleStep mangler resource store d = store := by
        unfold mangleStep
        rw [hd]
      rw [hstep]
      exact ih store c hc
    | some c0 =>
      simp only [List.filterMap_cons, hd, List.mem_cons, not_or] at hc
      have hstep : mangleStep mangler resource store d =
          fun n => if n = c0 then mangler resource (store c0) else store n := by
        unfold mangleStep
        rw [hd]
      rw [hstep, ih _ c hc.2]
      simp [hc.1]

theorem mangleFold_rename (mangler : Mangler) (resource : Resource) :
    ∀ (l : List GlobalDeclaration) (store : Names) (c : Nat),
      (l.filterMap (fun d => d.ident)).Nodup →
      c ∈ l.filterMap (fun d => d.ident) →
      l.foldl (mangleStep mangler resource) store c =
        mangler resource (store c) := by
  intro l
  induction l with
  | nil => intro store c _ hm; exact absurd hm (by simp)
  | cons d rest ih =>
    intro store c hnd hm
    rw [List.foldl_cons]
    cases hd : d.ident with
    | none =>
      simp only [List.filterMap_cons, hd] at hnd hm
      have hstep : mangleStep mangler resource store d = store := by
        unfold mangleStep
        rw [hd]
      rw [hstep]
      exact ih store c hnd hm
    | some c0 =>
      simp only [List.filterMap_cons, hd] at hnd hm
      have hstep : mangleStep mangler resource store d =
          fun n => if n = c0 then mangler resource (store c0) else store n := by
        unfold mangleStep
        rw [hd]
      rw [hstep]
      rcases List.mem_cons.mp hm with hc0 | hmr
      · subst hc0
        have hnotin : ¬ c ∈ rest.filterMap (fun d => d.ident) :=
          (List.nodup_cons.mp hnd).1
        rw [mangleFold_frame mangler resource rest _ c hnotin]
        simp
      · have hne : ¬ (c = c0) := by
          intro he
          subst he
          exact (List.nodup_cons.mp hnd).1 hmr
        rw [ih _ c (List.nodup_cons.mp hnd).2 hmr]
        simp [hne]

theorem mangleModFold_root (mangler : Mangler) (rootR : Resource) :
    ∀ (ms : List (Resource × Module)) (store : Names) (c : Nat),
      (∀ e ∈ ms, ¬ (e.1 = rootR) → ¬ c ∈ declCells e.2.source) →
      ms.foldl (mangleModStep mangler rootR) store c = store c := by
  intro ms
  induction ms with
  | nil => intro store c _; rfl
  | cons e rest ih =>
    intro store c hc
    rw [List.foldl_cons]
    have hstep : mangleModStep mangler rootR store e c = store c := by
      unfold mangleModStep
      by_cases he : e.1 = rootR
      · rw [if_pos he]
      · rw [if_neg he, mangle_decls_eq_foldl]
        exact mangleFold_frame mangler e.1 _ store c (hc e (by simp) he)
    rw [ih (mangleModStep mangler rootR store e) c
      (fun x hx hxr => hc x (by simp [hx]) hxr), hstep]

theorem mangleModFold_rename (mangler : Mangler) (rootR : Resource) :
    ∀ (ms : List (Resource × Module)) (store : Names) (c : Nat)
      (e0 : Resource × Module),
      (ms.flatMap (fun e => declCells e.2.source)).Nodup →
      e0 ∈ ms → ¬ (e0.1 = rootR) → c ∈ declCells e0.2.source →
      ms.foldl (mangleModStep mangler rootR) store c =
        mangler e0.1 (store c) := by
  intro ms
  induction ms with
  | nil => intro store c e0 _ h0 _ _; exact absurd h0 (by simp)
  | cons e rest ih =>
    intro store c e0 hnd h0 hroot hc
    simp only [List.flatMap_cons] at hnd
    have hnd1 := (List.nodup_append.mp hnd).1
    have hnd2 := (List.nodup_append.mp hnd).2.1
    have hdisj := (List.nodup_append.mp hnd).2.2
    rw [List.foldl_cons]
    rcases List.mem_cons.mp h0 with he0 | h0r
    · subst he0
      have hstep : mangleModStep mangler rootR store e0 c =
          mangler e0.1 (store c) := by
        unfold mangleModStep
        rw [if_neg hroot, mangle_decls_eq_foldl]
        exact mangleFold_rename mangler e0.1 _ store c hnd1 hc
      have hcrest : ∀ x ∈ rest, ¬ (x.1 = rootR) →
          ¬ c ∈ declCells x.2.source := by
        intro x hx _ hm
        exact hdisj hc (List.mem_flatMap.mpr ⟨x, hx, hm⟩)
      rw [mangleModFold_root mangler rootR rest
        (mangleModStep mangler rootR store e0) c hcrest, hstep]
    · have hcnot : ¬ c ∈ declCells e.2.source := by
        intro hm
        exact hdisj hm (List.mem_flatMap.mpr ⟨e0, h0r, hc⟩)
      have hstep : mangleModStep mangler rootR store e c = store c := by
        unfold mangleModStep
        by_cases he : e.1 = rootR
        · rw [if_pos he]
        · rw [if_neg he, mangle_decls_eq_foldl]
          exact mangleFold_frame mangler e.1 _ store c hcnot
      rw [ih (mangleModStep mangler rootR store e) c e0 hnd2 h0r hroot hc,
        hstep]

/-- Claim C7: for a `Resolutions` whose creation order is nonempty (the
source unwraps `order.first()`) and whose modules' defining identifier
cells are pairwise distinct (cells are distinct arena objects in the
source), `mangle` succeeds and renames the defining identifier of every
named declaration of every non-root module to the mangler's answer for
(module path, current name); every cell that is not a defining identifier
of a non-root declaration — in particular every defining identifier of
the root module — keeps its name. -/
theorem c7_mangle (st : Resolutions) (mangler : Mangler) (store : Names)
    (rootR : Resource) (hroot : st.order.head? = some rootR)
    (hnodup : (st.modules.flatMap (fun e => declCells e.2.source)).Nodup) :
    ∃ store2, st.mangle mangler store = KOut.ok store2 ∧
      (∀ k e, st.modules.get? k = some e → ¬ (e.1 = rootR) →
        ∀ i d, e.2.source.global_declarations.get? i = some d →
          ∀ c, d.ident = some c → store2 c = mangler e.1 (store c)) ∧
      (∀ c, (∀ e ∈ st.modules, ¬ c ∈ declCells e.2.source) →
        store2 c = store c) ∧
      (∀ k e, st.modules.get? k = some e → e.1 = rootR →
        ∀ i d, e.2.source.global_declarations.get? i = some d →
          ∀ c, d.ident = some c → store2 c = store c) := by
  refine ⟨st.modules.foldl (mangleModStep mangler rootR) store,
    ?_, ?_, ?_, ?_⟩
  · unfold Resolutions.mangle
    rw [hroot]
    rfl
  · intro k e hk hne i d hi c hcid
    have he : e ∈ st.modules := List.get?_mem hk
    have hcell : c ∈ declCells e.2.source :=
      List.mem_filterMap.mpr ⟨d, List.get?_mem hi, hcid⟩
    exact mangleModFold_rename mangler rootR st.modules store c e hnodup he
      hne hcell
  · intro c hc
    exact mangleModFold_root mangler rootR st.modules store c
      (fun e he _ => hc e he)
  · intro k e hk heq i d hi c hcid
    have he : e ∈ st.modules := List.get?_mem hk
    have hcell : c ∈ declCells e.2.source :=
      List.mem_filterMap.mpr ⟨d, List.get?_mem hi, hcid⟩
    have hpair : List.Pairwise
        (List.Disjoint on fun e => declCells e.2.source) st.modules :=
      (List.nodup_flatMap.mp hnodup).2
    apply mangleModFold_root
    intro x hx hxr hm
    have hxe : ¬ (x = e) := fun hv => hxr (by rw [hv, heq])
    have hd2 := hpair.forall (fun a b hab => hab.symm) hx he hxe
    exact hd2 hm hcell

/-- The C7 characterization evaluated on the cycle run with the doubling
mangler: the non-root declaration `fb` (cell 2) is renamed, the root
declaration `fa` (cell 0) is not. -/
theorem c7_mangle_witness :
    fxMangled 2 = String.append "fb" "fb" ∧ fxMangled 0 = "fa" := by
  obtain ⟨store2, hs, hren, hframe, hroot2⟩ :=
    c7_mangle fxStAB fxMangler fxNames fxRa rfl (by decide)
  have hsv : store2 = fxMangled := by
    unfold fxMangled
    rw [hs]
  subst hsv
  constructor
  · have h2 := hren 1 _ rfl (by decide) 0 _ rfl 2 rfl
    exact h2.trans rfl
  · have h0 := hroot2 0 _ rfl rfl 0 _ rfl 0 rfl
    exact h0.trans rfl

end Wesl
